import Mathlib

/-!
Shallow embedding of `src/kernel_evm/kernel/src/storage.rs`: the EVM rollup
persistence layer of the EVM kernel over the durable hierarchical key-value store.

The durable store (a host service, consumed through the
`tezos_smart_rollup_host::runtime::Runtime` interface) is modelled as an
association list from full paths to byte values.  A path is a list of
segments and a segment is a list of bytes (the Rust code builds paths from
byte vectors such as `format!("/{}", number).into()`).  Intermediate tree
nodes exist implicitly: a node "has children" when some stored key strictly
extends it, and `store_count_subkeys` counts the distinct next segments of
the stored keys extending the node.  Machine integers (`u16`, `U256`,
byte values `u8`) are modelled as `Nat` with explicit `% 2 ^ w` where the
code truncates.  Fallible host calls return `Except Err`.

`OwnedPath::try_from` validation is modelled by the `validSegment` /
`pathOk` predicates; the path-derivation functions themselves are total
because their outputs are proved valid (see the claim about path
derivation), matching the Rust code where `try_from` can only fail on a
malformed segment.
-/

set_option maxRecDepth 10000

abbrev Bytes := List Nat
abbrev Segment := List Nat
abbrev StorePath := List Segment
abbrev Store := List (StorePath × Bytes)

/-- Error type: store errors propagated from the host, and the decode error
`InvalidLoadValue { expected, actual }` from `crate::error::StorageError`. -/
inductive Err where
  | storeNotFound
  | invalidLoadValue (expected actual : Nat)
  | pathError
deriving DecidableEq

/-- Model of `tezos_smart_rollup_host::runtime::ValueType`. -/
inductive ValueType where
  | Value
  | ValueWithSubtree
  | Subtree
deriving DecidableEq

instance {ε α : Type} [DecidableEq ε] [DecidableEq α] : DecidableEq (Except ε α) := by
  intro a b
  cases a <;> cases b
  case error.error e f =>
    exact if h : e = f then .isTrue (by rw [h]) else .isFalse (by intro hc; cases hc; exact h rfl)
  case error.ok e x => exact .isFalse (by intro hc; cases hc)
  case ok.error x e => exact .isFalse (by intro hc; cases hc)
  case ok.ok x y =>
    exact if h : x = y then .isTrue (by rw [h]) else .isFalse (by intro hc; cases hc; exact h rfl)

/-- First-match lookup of the byte value stored at a path. -/
def lookupVal (s : Store) (p : StorePath) : Option Bytes :=
  (s.find? (fun kv => decide (kv.1 = p))).map (·.2)

/-- Association-list update: replace the first binding of `p`, or append a
fresh binding when `p` is unbound. -/
def setVal : Store → StorePath → Bytes → Store
  | [], p, v => [(p, v)]
  | kv :: s, p, v => if kv.1 = p then (p, v) :: s else kv :: setVal s p v

/-- Boolean test that `p` is a prefix of `q` (segment lists). -/
def isPrefixB : StorePath → StorePath → Bool
  | [], _ => true
  | _ :: _, [] => false
  | a :: l, b :: m => decide (a = b) && isPrefixB l m

/-- The node at `p` has at least one child: some stored key strictly extends `p`. -/
def hasChild (s : Store) (p : StorePath) : Bool :=
  s.any (fun kv => isPrefixB p kv.1 && decide (kv.1 ≠ p))

/-- Model of `Runtime::store_has`. -/
def store_has (s : Store) (p : StorePath) : Option ValueType :=
  match lookupVal s p, hasChild s p with
  | some _, false => some .Value
  | some _, true => some .ValueWithSubtree
  | none, true => some .Subtree
  | none, false => none

/-- Model of `Runtime::store_value_size`: errors when no value is stored at `p`. -/
def store_value_size (s : Store) (p : StorePath) : Except Err Nat :=
  match lookupVal s p with
  | none => .error .storeNotFound
  | some v => .ok v.length

/-- Model of `Runtime::store_read` / `Runtime::store_read_slice`: read up to `maxBytes`
bytes starting at `offset`; errors when no value is stored or the offset is
past the end of the value. -/
def store_read (s : Store) (p : StorePath) (offset maxBytes : Nat) : Except Err Bytes :=
  match lookupVal s p with
  | none => .error .storeNotFound
  | some v =>
    if offset ≤ v.length then .ok ((v.drop offset).take maxBytes)
    else .error .storeNotFound

/-- Model of `Runtime::store_write`: splice `data` into the stored value at `offset`;
creates the value when absent (offset must then be 0); errors when the
offset is past the end. -/
def store_write (s : Store) (p : StorePath) (data : Bytes) (offset : Nat) : Except Err Store :=
  match lookupVal s p with
  | some v =>
    if offset ≤ v.length then
      .ok (setVal s p (v.take offset ++ data ++ v.drop (offset + data.length)))
    else .error .storeNotFound
  | none =>
    if offset = 0 then .ok (setVal s p data) else .error .storeNotFound

/-- Model of `Runtime::store_delete`: remove the whole subtree rooted at `p`; errors
when nothing is stored under `p`. -/
def store_delete (s : Store) (p : StorePath) : Except Err Store :=
  if s.any (fun kv => isPrefixB p kv.1) then
    .ok (s.filter (fun kv => !isPrefixB p kv.1))
  else .error .storeNotFound

/-- The next segments of all stored keys extending `p`, with duplicates. -/
def childSegsRaw (s : Store) (p : StorePath) : List Segment :=
  s.filterMap (fun kv => if isPrefixB p kv.1 then (kv.1.drop p.length).head? else none)

/-- Model of `Runtime::store_count_subkeys`: number of distinct direct children of `p`. -/
def store_count_subkeys (s : Store) (p : StorePath) : Nat :=
  (childSegsRaw s p).dedup.length

/-- The set of direct children of `p`, as a `Finset` (specification-side view
of `store_count_subkeys`). -/
def directChildren (s : Store) (p : StorePath) : Finset Segment :=
  (childSegsRaw s p).toFinset

/-! ### Byte encodings of identifiers -/

/-- ASCII bytes of a string constant (the Rust code manipulates paths as byte
vectors). -/
def strBytes (s : String) : Segment := s.toList.map Char.toNat

/-- Little-endian decimal digits of `n`; `fuel`-structured so that it reduces
in the kernel.  `decimalDigitsAux fuel n` is correct whenever `n ≤ fuel`. -/
def decimalDigitsAux : Nat → Nat → List Nat
  | _, 0 => []
  | 0, _ + 1 => []
  | fuel + 1, n + 1 => (n + 1) % 10 :: decimalDigitsAux fuel ((n + 1) / 10)

/-- ASCII bytes of the decimal representation of `n` (Rust `format!("{}", n)`). -/
def decimalBytes (n : Nat) : Segment :=
  if n = 0 then [48] else ((decimalDigitsAux n n).reverse.map (fun d => 48 + d))

/-- One lowercase hex digit as an ASCII byte (`hex::encode`). -/
def hexDigitByte (d : Nat) : Nat := if d < 10 then 48 + d else 87 + d

/-- ASCII bytes of the lowercase hex encoding of a byte sequence (`hex::encode`). -/
def hexEncode : Bytes → Segment
  | [] => []
  | b :: bs => hexDigitByte (b / 16) :: hexDigitByte (b % 16) :: hexEncode bs

/-- Little-endian base-256 decode (`u16::from_le_bytes`, `U256::from_little_endian`). -/
def leDecode (bs : Bytes) : Nat := bs.foldr (fun b acc => b + 256 * acc) 0

/-- Model of `u16::to_le_bytes`. -/
def u16ToLeBytes (n : Nat) : Bytes := [n % 256, n / 256 % 256]

/-- Model of `U256::to_little_endian` into a 32-byte buffer. -/
def u256ToLeBytes (n : Nat) : Bytes := (List.range 32).map (fun i => n / 256 ^ i % 256)

/-! ### Constants and path derivation (storage.rs top of file) -/

/-- Model of `tezos_smart_rollup_core::MAX_FILE_CHUNK_SIZE`: the store-level cap on a
single value read/write. -/
def MAX_FILE_CHUNK_SIZE : Nat := 2048

/-- Model of `TRANSACTION_HASH_SIZE * 128 = 4096`. -/
def MAX_TRANSACTION_HASHES : Nat := 4096

def EVM_CURRENT_BLOCK : StorePath := [strBytes ("evm"), strBytes ("blocks"), strBytes ("current")]

def EVM_BLOCKS : StorePath := [strBytes ("evm"), strBytes ("blocks")]

def BLOCKS_NUMBER : Segment := strBytes ("number")

def BLOCKS_HASH : Segment := strBytes ("hash")

def BLOCKS_TRANSACTIONS : Segment := strBytes ("transactions")

def EVM_TRANSACTIONS_RECEIPTS : StorePath := [strBytes ("evm"), strBytes ("transactions_receipts")]

def EVM_TRANSACTIONS_OBJECTS : StorePath := [strBytes ("evm"), strBytes ("transactions_objects")]

def CHUNKED_TRANSACTIONS : StorePath := [strBytes ("chunked_transactions")]

def CHUNKED_TRANSACTION_NUM_CHUNKS : Segment := strBytes ("num_chunks")

/-- Model of `block_path`: `/evm/blocks/<decimal number>`. -/
def block_path (number : Nat) : StorePath := EVM_BLOCKS ++ [decimalBytes number]

/-- Model of `receipt_path`: `/evm/transactions_receipts/<hex hash>`. -/
def receipt_path (h : Bytes) : StorePath := EVM_TRANSACTIONS_RECEIPTS ++ [hexEncode h]

/-- Model of `object_path`: `/evm/transactions_objects/<hex hash>`. -/
def object_path (h : Bytes) : StorePath := EVM_TRANSACTIONS_OBJECTS ++ [hexEncode h]

/-- Model of `chunked_transaction_path`: `/chunked_transactions/<hex hash>`. -/
def chunked_transaction_path (h : Bytes) : StorePath := CHUNKED_TRANSACTIONS ++ [hexEncode h]

/-- Model of `chunked_transaction_num_chunks_path`: the `/num_chunks` metadata child. -/
def chunked_transaction_num_chunks_path (ctp : StorePath) : StorePath :=
  ctp ++ [CHUNKED_TRANSACTION_NUM_CHUNKS]

/-- Model of `transaction_chunk_path`: the `/<decimal i>` fragment child. -/
def transaction_chunk_path (ctp : StorePath) (i : Nat) : StorePath :=
  ctp ++ [decimalBytes i]

/-- Allowed path bytes (`tezos_smart_rollup_host::path`): `[A-Za-z0-9._-]`. -/
def validPathByte (b : Nat) : Bool :=
  (97 ≤ b && b ≤ 122) || (65 ≤ b && b ≤ 90) || (48 ≤ b && b ≤ 57) ||
    b == 46 || b == 45 || b == 95

/-- A path segment accepted by `OwnedPath::try_from`: nonempty, allowed bytes. -/
def validSegment (seg : Segment) : Bool := !seg.isEmpty && seg.all validPathByte

/-- All segments of the path are valid. -/
def pathOk (p : StorePath) : Bool := p.all validSegment

/-! ### storage.rs helper functions -/

/-- Model of `store_read_slice` (storage.rs): read into a zeroed buffer of length
`bufLen` at offset 0 and demand that exactly `expected` bytes were read,
failing with `InvalidLoadValue` otherwise. -/
def store_read_slice (s : Store) (p : StorePath) (bufLen expected : Nat) : Except Err Bytes :=
  match store_read s p 0 bufLen with
  | .error e => .error e
  | .ok bytes =>
    if bytes.length = expected then .ok bytes
    else .error (.invalidLoadValue expected bytes.length)

/-- Model of `store_read_empty_safe` (storage.rs): a zero-size stored value reads as
the empty byte sequence instead of erroring. -/
def store_read_empty_safe (s : Store) (p : StorePath) (offset maxBytes : Nat) :
    Except Err Bytes :=
  match store_value_size s p with
  | .error e => .error e
  | .ok n => if n = 0 then .ok [] else store_read s p offset maxBytes

/-- Model of `read_current_block_number`: 8-byte read of `/evm/blocks/current/number`,
little-endian decode. -/
def read_current_block_number (s : Store) : Except Err Nat :=
  match store_read_slice s (EVM_CURRENT_BLOCK ++ [BLOCKS_NUMBER]) 8 8 with
  | .error e => .error e
  | .ok bytes => .ok (leDecode bytes)

/-- Rust slice `chunks 32`: split into consecutive 32-byte chunks, the last
one possibly shorter. -/
def chunks32 (l : Bytes) : List Bytes :=
  if l = [] then [] else l.take 32 :: chunks32 (l.drop 32)
termination_by l.length
decreasing_by
  simp only [List.length_drop]
  cases l with
  | nil => simp_all
  | cons a t => simp only [List.length_cons]; omega

/-- Rust `[T]::concat`. -/
def concatAll (l : List Bytes) : Bytes := l.foldr (fun a b => a ++ b) []

/-- Model of `read_nth_block_transactions`: read the `transactions` value of the block (at
most `MAX_TRANSACTION_HASHES` bytes), split into 32-byte chunks and keep
those that convert to a 32-byte array. -/
def read_nth_block_transactions (s : Store) (bp : StorePath) : Except Err (List Bytes) :=
  match store_read_empty_safe s (bp ++ [BLOCKS_TRANSACTIONS]) 0 MAX_TRANSACTION_HASHES with
  | .error e => .error e
  | .ok bytes => .ok ((chunks32 bytes).filter (fun c => decide (c.length = 32)))

/-- Model of `tezos_ethereum::block::L2Block` restricted to the fields this layer
stores: number, hash (32 bytes), transaction hashes (32 bytes each). -/
structure L2Block where
  number : Nat
  hash : Bytes
  transactions : List Bytes
deriving DecidableEq

/-- Modelled from the spec: `L2Block::new` of the `tezos_ethereum` crate is
not under `src/`; per the data model of the spec it builds a block from a number
and a transaction-hash list.  The hash is not an input of this constructor,
so it is a constructor-determined constant (the all-zero 32-byte hash). -/
def L2Block.new (number : Nat) (transactions : List Bytes) : L2Block :=
  { number := number, hash := List.replicate 32 0, transactions := transactions }

/-- Model of `read_current_block_nodebug`: pointer number, then the
transaction list of that block via its numbered path, rebuilt with `L2Block::new`.
(`read_current_block` only adds logging around this.) -/
def read_current_block_nodebug (s : Store) : Except Err L2Block :=
  match read_current_block_number s with
  | .error e => .error e
  | .ok number =>
    match read_nth_block_transactions s (block_path number) with
    | .error e => .error e
    | .ok transactions => .ok (L2Block.new number transactions)

/-- Model of `store_block_number`: 32-byte little-endian write of the number field. -/
def store_block_number (s : Store) (bp : StorePath) (n : Nat) : Except Err Store :=
  store_write s (bp ++ [BLOCKS_NUMBER]) (u256ToLeBytes n) 0

/-- Model of `store_block_hash`. -/
def store_block_hash (s : Store) (bp : StorePath) (h : Bytes) : Except Err Store :=
  store_write s (bp ++ [BLOCKS_HASH]) h 0

/-- Model of `store_block_transactions`: one value holding the concatenation of all
transaction hashes. -/
def store_block_transactions (s : Store) (bp : StorePath) (txs : List Bytes) :
    Except Err Store :=
  store_write s (bp ++ [BLOCKS_TRANSACTIONS]) (concatAll txs) 0

/-- Model of `store_block`. -/
def store_block (s : Store) (b : L2Block) (bp : StorePath) : Except Err Store :=
  match store_block_number s bp b.number with
  | .error e => .error e
  | .ok s1 =>
    match store_block_hash s1 bp b.hash with
    | .error e => .error e
    | .ok s2 => store_block_transactions s2 bp b.transactions

/-- Model of `store_block_by_number`. -/
def store_block_by_number (s : Store) (b : L2Block) : Except Err Store :=
  store_block s b (block_path b.number)

/-- Model of `store_current_block_nodebug`: the number field of the pointer, then a full
write of the block under its numbered path.  (`store_current_block` only
adds logging around this.) -/
def store_current_block_nodebug (s : Store) (b : L2Block) : Except Err Store :=
  match store_block_number s EVM_CURRENT_BLOCK b.number with
  | .error e => .error e
  | .ok s1 => store_block_by_number s1 b

/-! ### Chunked transaction reassembly (storage.rs) -/

/-- Model of `is_transaction_complete`: `store_count_subkeys` cast to `u16`, compared
with `num_chunks`; the count includes the `num_chunks` metadata child. -/
def is_transaction_complete (s : Store) (ctp : StorePath) (numChunks : Nat) : Bool :=
  decide (numChunks ≤ store_count_subkeys s ctp % 65536)

/-- Model of `chunked_transaction_num_chunks_by_path`: 2-byte read of the metadata
child, `u16::from_le_bytes`. -/
def chunked_transaction_num_chunks_by_path (s : Store) (ctp : StorePath) : Except Err Nat :=
  match store_read_slice s (chunked_transaction_num_chunks_path ctp) 2 2 with
  | .error e => .error e
  | .ok bytes => .ok (leDecode bytes)

/-- Model of `store_transaction_chunk_data`: skip when a value already exists under
the fragment path; otherwise write, splitting payloads larger than
`MAX_FILE_CHUNK_SIZE` into the first `MAX_FILE_CHUNK_SIZE` bytes at offset
0 and the remainder at offset `MAX_FILE_CHUNK_SIZE`. -/
def store_transaction_chunk_data (s : Store) (tcp : StorePath) (data : Bytes) :
    Except Err Store :=
  match store_has s tcp with
  | some .Value => .ok s
  | some .ValueWithSubtree => .ok s
  | _ =>
    if MAX_FILE_CHUNK_SIZE < data.length then
      match store_write s tcp (data.take MAX_FILE_CHUNK_SIZE) 0 with
      | .error e => .error e
      | .ok s1 => store_write s1 tcp (data.drop MAX_FILE_CHUNK_SIZE) MAX_FILE_CHUNK_SIZE
    else
      store_write s tcp data 0

/-- Model of `read_transaction_chunk_data`: when the stored size exceeds
`MAX_FILE_CHUNK_SIZE`, read twice (offsets 0 and `MAX_FILE_CHUNK_SIZE`) and
concatenate; otherwise one read. -/
def read_transaction_chunk_data (s : Store) (tcp : StorePath) : Except Err Bytes :=
  match store_value_size s tcp with
  | .error e => .error e
  | .ok dataSize =>
    if MAX_FILE_CHUNK_SIZE < dataSize then
      match store_read s tcp 0 MAX_FILE_CHUNK_SIZE with
      | .error e => .error e
      | .ok d1 =>
        match store_read s tcp MAX_FILE_CHUNK_SIZE MAX_FILE_CHUNK_SIZE with
        | .error e => .error e
        | .ok d2 => .ok (d1 ++ d2)
    else
      store_read s tcp 0 MAX_FILE_CHUNK_SIZE

/-- The loop body of `get_full_transaction` over a given list of fragment
indices: read each existing fragment, substitute `missingData` at each
absent index. -/
def get_full_transaction_go (s : Store) (ctp : StorePath) (missingData : Bytes) :
    List Nat → Except Err Bytes
  | [] => .ok []
  | i :: rest =>
    match store_has s (transaction_chunk_path ctp i) with
    | none =>
      match get_full_transaction_go s ctp missingData rest with
      | .error e => .error e
      | .ok tail => .ok (missingData ++ tail)
    | some _ =>
      match read_transaction_chunk_data s (transaction_chunk_path ctp i) with
      | .error e => .error e
      | .ok d =>
        match get_full_transaction_go s ctp missingData rest with
        | .error e => .error e
        | .ok tail => .ok (d ++ tail)

/-- Model of `get_full_transaction`: iterate the fragment indices `0 .. num_chunks`. -/
def get_full_transaction (s : Store) (ctp : StorePath) (numChunks : Nat)
    (missingData : Bytes) : Except Err Bytes :=
  get_full_transaction_go s ctp missingData (List.range numChunks)

/-- Model of `store_transaction_chunk`: read `num_chunks`; when complete, reassemble,
delete the whole per-hash subtree and return the payload; otherwise persist
the fragment and return `none`. -/
def store_transaction_chunk (s : Store) (txHash : Bytes) (i : Nat) (data : Bytes) :
    Except Err (Store × Option Bytes) :=
  let ctp := chunked_transaction_path txHash
  match chunked_transaction_num_chunks_by_path s ctp with
  | .error e => .error e
  | .ok numChunks =>
    if is_transaction_complete s ctp numChunks then
      match get_full_transaction s ctp numChunks data with
      | .error e => .error e
      | .ok full =>
        match store_delete s ctp with
        | .error e => .error e
        | .ok s1 => .ok (s1, some full)
    else
      match store_transaction_chunk_data s (transaction_chunk_path ctp i) data with
      | .error e => .error e
      | .ok s1 => .ok (s1, none)

/-- Model of `create_chunked_transaction`: write the `num_chunks` metadata child. -/
def create_chunked_transaction (s : Store) (txHash : Bytes) (numChunks : Nat) :
    Except Err Store :=
  store_write s
    (chunked_transaction_num_chunks_path (chunked_transaction_path txHash))
    (u16ToLeBytes numChunks) 0

/-- Model of `remove_chunked_transaction`: delete the per-hash subtree. -/
def remove_chunked_transaction (s : Store) (txHash : Bytes) : Except Err Store :=
  store_delete s (chunked_transaction_path txHash)

/-- Specification-side description of the transaction-list read: split into
fixed 32-byte strides and silently discard a trailing partial stride. -/
def fullStrides (v : Bytes) : List Bytes :=
  if 32 ≤ v.length then v.take 32 :: fullStrides (v.drop 32) else []
termination_by v.length
decreasing_by
  simp only [List.length_drop]
  omega

/-! ### Basic lemmas about the store model -/

theorem lookupVal_nil (p : StorePath) : lookupVal [] p = none := rfl

theorem lookupVal_cons (k : StorePath) (v : Bytes) (s : Store) (p : StorePath) :
    lookupVal ((k, v) :: s) p = if k = p then some v else lookupVal s p := by
  simp only [lookupVal, List.find?]
  by_cases h : k = p <;> simp [h]

theorem lookupVal_eq_none_iff (s : Store) (p : StorePath) :
    lookupVal s p = none ↔ ∀ kv ∈ s, kv.1 ≠ p := by
  simp [lookupVal, List.find?_eq_none]

theorem lookupVal_setVal (s : Store) (p q : StorePath) (v : Bytes) :
    lookupVal (setVal s p v) q = if p = q then some v else lookupVal s q := by
  induction s with
  | nil => simp [setVal, lookupVal_cons, lookupVal_nil]
  | cons kv s ih =>
    by_cases h : kv.1 = p
    · rcases kv with ⟨k, w⟩
      simp only at h
      subst h
      simp only [setVal, if_pos rfl, lookupVal_cons]
      by_cases hq : k = q
      · simp [hq, lookupVal_cons]
      · simp [hq, lookupVal_cons]
    · simp only [setVal, h, if_neg h]
      rcases kv with ⟨k, w⟩
      simp only at h
      by_cases hq : k = q
      · subst hq
        have hpq : p ≠ k := fun hc => h hc.symm
        simp [lookupVal_cons, hpq, ih]
      · simp [lookupVal_cons, hq, ih]

theorem setVal_setVal (s : Store) (p : StorePath) (a b : Bytes) :
    setVal (setVal s p a) p b = setVal s p b := by
  induction s with
  | nil => simp [setVal]
  | cons kv s ih =>
    by_cases h : kv.1 = p
    · simp [setVal, h]
    · simp [setVal, h, ih]

theorem store_write_absent (s : Store) (p : StorePath) (d : Bytes)
    (h : lookupVal s p = none) : store_write s p d 0 = .ok (setVal s p d) := by
  simp [store_write, h]

theorem store_write_zero (s : Store) (p : StorePath) (d v : Bytes)
    (h : lookupVal s p = some v) :
    store_write s p d 0 = .ok (setVal s p (d ++ v.drop d.length)) := by
  simp [store_write, h]

/-! ### Lemmas about `isPrefixB` -/

theorem isPrefixB_refl (p : StorePath) : isPrefixB p p = true := by
  induction p with
  | nil => rfl
  | cons a l ih => simp [isPrefixB, ih]

theorem isPrefixB_append (p r : StorePath) : isPrefixB p (p ++ r) = true := by
  induction p with
  | nil => rfl
  | cons a l ih => simp [isPrefixB, ih]

theorem isPrefixB_length_le (p q : StorePath) (h : isPrefixB p q = true) :
    p.length ≤ q.length := by
  induction p generalizing q with
  | nil => simp
  | cons a l ih =>
    cases q with
    | nil => simp [isPrefixB] at h
    | cons b m =>
      simp only [isPrefixB, Bool.and_eq_true, decide_eq_true_eq] at h
      simpa using ih m h.2

theorem isPrefixB_eq_of_length (p q : StorePath) (h : isPrefixB p q = true)
    (hl : p.length = q.length) : p = q := by
  induction p generalizing q with
  | nil =>
    cases q with
    | nil => rfl
    | cons b m => simp at hl
  | cons a l ih =>
    cases q with
    | nil => simp [isPrefixB] at h
    | cons b m =>
      simp only [isPrefixB, Bool.and_eq_true, decide_eq_true_eq] at h
      simp only [List.length_cons, Nat.succ.injEq] at hl
      rw [h.1, ih m h.2 hl]

theorem isPrefixB_snoc_snoc (p : StorePath) (a b : Segment) :
    isPrefixB (p ++ [a]) (p ++ [b]) = true ↔ a = b := by
  constructor
  · intro h
    have := isPrefixB_eq_of_length _ _ h (by simp)
    simpa using this
  · rintro rfl
    exact isPrefixB_refl _

theorem not_isPrefixB_snoc_self (p : StorePath) (a : Segment) :
    isPrefixB (p ++ [a]) p = false := by
  by_contra h
  have h2 : isPrefixB (p ++ [a]) p = true := by
    cases hb : isPrefixB (p ++ [a]) p
    · exact absurd hb h
    · rfl
  have := isPrefixB_length_le _ _ h2
  simp at this

theorem hasChild_eq_false (s : Store) (p : StorePath)
    (h : ∀ kv ∈ s, isPrefixB p kv.1 = true → kv.1 = p) : hasChild s p = false := by
  simp only [hasChild, List.any_eq_false, Bool.and_eq_true, decide_eq_true_eq, ne_eq,
    not_and, Bool.not_eq_true]
  intro kv hkv
  intro hpre
  simp [h kv hkv hpre]

/-! ### Lemmas about the identifier encodings -/

/-- Little-endian base-10 decode, used to invert `decimalDigitsAux`. -/
def ofDecimalDigits (l : List Nat) : Nat := l.foldr (fun d acc => d + 10 * acc) 0

theorem ofDecimalDigits_decimalDigitsAux :
    ∀ fuel n, n ≤ fuel → ofDecimalDigits (decimalDigitsAux fuel n) = n := by
  intro fuel
  induction fuel with
  | zero =>
    intro n hn
    interval_cases n
    rfl
  | succ fuel ih =>
    intro n hn
    cases n with
    | zero => rfl
    | succ m =>
      have hle : (m + 1) / 10 ≤ fuel := by
        have := Nat.div_le_self (m + 1) 10
        have h10 : (m + 1) / 10 < m + 1 := Nat.div_lt_self (Nat.succ_pos m) (by norm_num)
        omega
      simp only [decimalDigitsAux, ofDecimalDigits, List.foldr_cons]
      have := ih ((m + 1) / 10) hle
      simp only [ofDecimalDigits] at this
      rw [this]
      omega

theorem decimalDigitsAux_lt_ten :
    ∀ fuel n, ∀ d ∈ decimalDigitsAux fuel n, d < 10 := by
  intro fuel
  induction fuel with
  | zero =>
    intro n d hd
    cases n <;> simp [decimalDigitsAux] at hd
  | succ fuel ih =>
    intro n d hd
    cases n with
    | zero => simp [decimalDigitsAux] at hd
    | succ m =>
      simp only [decimalDigitsAux, List.mem_cons] at hd
      rcases hd with rfl | hd
      · exact Nat.mod_lt _ (by norm_num)
      · exact ih _ d hd

theorem decimalBytes_mem_digit (n : Nat) : ∀ b ∈ decimalBytes n, 48 ≤ b ∧ b ≤ 57 := by
  intro b hb
  by_cases h : n = 0
  · simp [decimalBytes, h] at hb
    omega
  · simp only [decimalBytes, if_neg h, List.mem_map, List.mem_reverse] at hb
    obtain ⟨d, hd, rfl⟩ := hb
    have := decimalDigitsAux_lt_ten n n d hd
    omega

theorem decimalBytes_injective : Function.Injective decimalBytes := by
  intro m n h
  have haux : ∀ k, k ≠ 0 →
      ((decimalDigitsAux k k).reverse.map (fun d => 48 + d)) = [48] → False := by
    intro k hk habs
    have hlen : (decimalDigitsAux k k).length = 1 := by
      have := congrArg List.length habs
      simpa using this
    obtain ⟨d, hd⟩ : ∃ d, decimalDigitsAux k k = [d] := by
      cases hl : decimalDigitsAux k k with
      | nil => rw [hl] at hlen; simp at hlen
      | cons a t =>
        rw [hl] at hlen
        simp only [List.length_cons] at hlen
        have : t = [] := by
          cases t with
          | nil => rfl
          | cons x y => simp at hlen
        exact ⟨a, by rw [this]⟩
    rw [hd] at habs
    simp only [List.reverse_cons, List.reverse_nil, List.nil_append, List.map_cons,
      List.map_nil, List.cons.injEq, and_true] at habs
    have hdec := ofDecimalDigits_decimalDigitsAux k k le_rfl
    rw [hd] at hdec
    simp only [ofDecimalDigits, List.foldr_cons, List.foldr_nil] at hdec
    omega
  by_cases hm : m = 0 <;> by_cases hn : n = 0
  · rw [hm, hn]
  · rw [hm] at h
    simp only [decimalBytes, if_pos rfl, if_neg hn] at h
    exact absurd h.symm (fun hc => haux n hn hc)
  · rw [hn] at h
    simp only [decimalBytes, if_neg hm, if_pos rfl] at h
    exact absurd h (fun hc => haux m hm hc)
  · simp only [decimalBytes, if_neg hm, if_neg hn] at h
    have hinj : Function.Injective (fun d : Nat => 48 + d) := fun a b hab => by
      simpa using hab
    have h2 := List.map_injective_iff.mpr hinj h
    have h3 := List.reverse_injective h2
    have hm2 := ofDecimalDigits_decimalDigitsAux m m le_rfl
    have hn2 := ofDecimalDigits_decimalDigitsAux n n le_rfl
    rw [← hm2, ← hn2, h3]

theorem decimalBytes_ne_num_chunks (n : Nat) :
    decimalBytes n ≠ CHUNKED_TRANSACTION_NUM_CHUNKS := by
  intro h
  have h110 : (110 : Nat) ∈ CHUNKED_TRANSACTION_NUM_CHUNKS := by decide
  rw [← h] at h110
  have := decimalBytes_mem_digit n 110 h110
  omega

theorem decimalBytes_ne_current (n : Nat) : decimalBytes n ≠ strBytes ("current") := by
  intro h
  have h99 : (99 : Nat) ∈ strBytes ("current") := by decide
  rw [← h] at h99
  have := decimalBytes_mem_digit n 99 h99
  omega

theorem hexDigitByte_inj (a b : Nat) (ha : a < 16) (hb : b < 16)
    (h : hexDigitByte a = hexDigitByte b) : a = b := by
  simp only [hexDigitByte] at h
  split at h <;> split at h <;> omega

theorem hexEncode_injOn :
    ∀ g h : Bytes, (∀ b ∈ g, b < 256) → (∀ b ∈ h, b < 256) →
      hexEncode g = hexEncode h → g = h := by
  intro g
  induction g with
  | nil =>
    intro h _ _ he
    cases h with
    | nil => rfl
    | cons c cs => simp [hexEncode] at he
  | cons b bs ih =>
    intro h hg hh he
    cases h with
    | nil => simp [hexEncode] at he
    | cons c cs =>
      simp only [hexEncode, List.cons.injEq] at he
      obtain ⟨h1, h2, h3⟩ := he
      have hb : b < 256 := hg b (by simp)
      have hc : c < 256 := hh c (by simp)
      have e1 : b / 16 = c / 16 := hexDigitByte_inj _ _ (by omega) (by omega) h1
      have e2 : b % 16 = c % 16 := hexDigitByte_inj _ _ (by omega) (by omega) h2
      have : b = c := by omega
      rw [this, ih cs (fun x hx => hg x (by simp [hx])) (fun x hx => hh x (by simp [hx])) h3]

theorem leDecode_u16 (n : Nat) (h : n < 65536) : leDecode (u16ToLeBytes n) = n := by
  simp only [leDecode, u16ToLeBytes, List.foldr_cons, List.foldr_nil]
  omega

theorem u16ToLeBytes_length (n : Nat) : (u16ToLeBytes n).length = 2 := rfl

theorem u256ToLeBytes_length (n : Nat) : (u256ToLeBytes n).length = 32 := by
  simp [u256ToLeBytes]

theorem leDecode_range_map (k : Nat) :
    ∀ n, leDecode ((List.range k).map (fun i => n / 256 ^ i % 256)) = n % 256 ^ k := by
  induction k with
  | zero => intro n; simp [leDecode, Nat.mod_one]
  | succ k ih =>
    intro n
    rw [List.range_succ_eq_map]
    simp only [List.map_cons, List.map_map]
    have hcomp :
        ((fun i => n / 256 ^ i % 256) ∘ Nat.succ) = (fun i => (n / 256) / 256 ^ i % 256) := by
      funext i
      simp only [Function.comp_apply]
      rw [pow_succ, mul_comm, ← Nat.div_div_eq_div_mul]
    rw [hcomp]
    have ihv := ih (n / 256)
    simp only [leDecode, List.foldr_cons]
    simp only [leDecode] at ihv
    rw [ihv]
    have h1 : (256 : Nat) ^ (k + 1) = 256 * 256 ^ k := by ring
    rw [h1, Nat.mod_mul]
    simp [pow_zero, Nat.div_one]

theorem leDecode_take8_u256 (n : Nat) (h : n < 2 ^ 64) :
    leDecode ((u256ToLeBytes n).take 8) = n := by
  have h32 : (List.range 32).take 8 = List.range 8 := by decide
  simp only [u256ToLeBytes, ← List.map_take, h32]
  rw [leDecode_range_map 8 n]
  have : (256 : Nat) ^ 8 = 2 ^ 64 := by norm_num
  rw [this]
  exact Nat.mod_eq_of_lt h

/-! ### Behavior of the fragment-level read/write helpers -/

theorem store_read_slice_exact (s : Store) (p : StorePath) (v : Bytes) (n : Nat)
    (h : lookupVal s p = some v) (hn : n ≤ v.length) :
    store_read_slice s p n n = .ok (v.take n) := by
  simp only [store_read_slice, store_read, h, Nat.zero_le, if_pos, List.drop_zero]
  rw [if_pos]
  simp only [List.length_take]
  omega

theorem store_read_slice_short (s : Store) (p : StorePath) (v : Bytes) (n : Nat)
    (h : lookupVal s p = some v) (hn : v.length < n) :
    store_read_slice s p n n = .error (.invalidLoadValue n v.length) := by
  have htake : v.take n = v := List.take_of_length_le (by omega)
  simp only [store_read_slice, store_read, h, Nat.zero_le, if_pos, List.drop_zero, htake]
  rw [if_neg (by omega)]

theorem read_transaction_chunk_data_of_lookup (s : Store) (tcp : StorePath) (v : Bytes)
    (h : lookupVal s tcp = some v) :
    read_transaction_chunk_data s tcp = .ok (v.take (2 * MAX_FILE_CHUNK_SIZE)) := by
  simp only [read_transaction_chunk_data, store_value_size, h]
  by_cases hlen : MAX_FILE_CHUNK_SIZE < v.length
  · rw [if_pos hlen]
    simp only [store_read, h, Nat.zero_le, if_pos, List.drop_zero]
    rw [if_pos (by omega)]
    show Except.ok
        (v.take MAX_FILE_CHUNK_SIZE ++ (v.drop MAX_FILE_CHUNK_SIZE).take MAX_FILE_CHUNK_SIZE) = _
    rw [← List.take_add]
    norm_num [two_mul]
  · rw [if_neg hlen]
    simp only [store_read, h, Nat.zero_le, if_pos, List.drop_zero]
    rw [List.take_of_length_le (by omega), List.take_of_length_le (by omega)]

theorem read_transaction_chunk_data_small (s : Store) (tcp : StorePath) (v : Bytes)
    (h : lookupVal s tcp = some v) (hlen : v.length ≤ 2 * MAX_FILE_CHUNK_SIZE) :
    read_transaction_chunk_data s tcp = .ok v := by
  rw [read_transaction_chunk_data_of_lookup s tcp v h, List.take_of_length_le hlen]

theorem store_transaction_chunk_data_absent (s : Store) (tcp : StorePath) (d : Bytes)
    (h : lookupVal s tcp = none) :
    store_transaction_chunk_data s tcp d = .ok (setVal s tcp d) := by
  have hbody :
      (if MAX_FILE_CHUNK_SIZE < d.length then
        match store_write s tcp (d.take MAX_FILE_CHUNK_SIZE) 0 with
        | .error e => .error e
        | .ok s1 => store_write s1 tcp (d.drop MAX_FILE_CHUNK_SIZE) MAX_FILE_CHUNK_SIZE
      else store_write s tcp d 0) = (Except.ok (setVal s tcp d) : Except Err Store) := by
    by_cases hlen : MAX_FILE_CHUNK_SIZE < d.length
    · rw [if_pos hlen]
      rw [store_write_absent s tcp _ h]
      have h1 : lookupVal (setVal s tcp (d.take MAX_FILE_CHUNK_SIZE)) tcp =
          some (d.take MAX_FILE_CHUNK_SIZE) := by
        rw [lookupVal_setVal]
        simp
      simp only [store_write, h1]
      rw [if_pos (by simp [List.length_take]; omega)]
      have htt : (d.take MAX_FILE_CHUNK_SIZE).take MAX_FILE_CHUNK_SIZE =
          d.take MAX_FILE_CHUNK_SIZE := by
        rw [List.take_take, Nat.min_self]
      have hdd : (d.take MAX_FILE_CHUNK_SIZE).drop
          (MAX_FILE_CHUNK_SIZE + (d.drop MAX_FILE_CHUNK_SIZE).length) = [] := by
        apply List.drop_eq_nil_of_le
        simp only [List.length_take]
        omega
      rw [htt, hdd, List.append_nil, List.take_append_drop, setVal_setVal]
    · rw [if_neg hlen, store_write_absent s tcp d h]
  cases hc : hasChild s tcp <;>
    simp only [store_transaction_chunk_data, store_has, h, hc] <;> exact hbody

theorem store_transaction_chunk_data_present (s : Store) (tcp : StorePath) (d v : Bytes)
    (h : lookupVal s tcp = some v) :
    store_transaction_chunk_data s tcp d = .ok s := by
  cases hc : hasChild s tcp <;>
    simp only [store_transaction_chunk_data, store_has, h, hc]

/-! ### A store holding one chunked transaction -/

/-- A store fragment holding one chunked transaction for hash `h`: the
`num_chunks` metadata child with value `N`, plus fragment children at the
indices in `idxs` with payloads `f i`. -/
def chunkStore (h : Bytes) (N : Nat) (f : Nat → Bytes) (idxs : List Nat) : Store :=
  (chunked_transaction_num_chunks_path (chunked_transaction_path h), u16ToLeBytes N)
    :: idxs.map (fun i => (transaction_chunk_path (chunked_transaction_path h) i, f i))

theorem isPrefixB_of_append_left (p r q : StorePath)
    (h : isPrefixB (p ++ r) q = true) : isPrefixB p q = true := by
  induction p generalizing q with
  | nil => rfl
  | cons a l ih =>
    cases q with
    | nil => simp [isPrefixB] at h
    | cons b m =>
      simp only [List.cons_append, isPrefixB, Bool.and_eq_true, decide_eq_true_eq] at h ⊢
      exact ⟨h.1, ih m h.2⟩

theorem transaction_chunk_path_ne_nc (h : Bytes) (i : Nat) :
    transaction_chunk_path (chunked_transaction_path h) i ≠
      chunked_transaction_num_chunks_path (chunked_transaction_path h) := by
  intro hc
  simp only [transaction_chunk_path, chunked_transaction_num_chunks_path] at hc
  have := List.append_cancel_left hc
  simp only [List.cons.injEq, and_true] at this
  exact decimalBytes_ne_num_chunks i this

theorem transaction_chunk_path_inj_idx (h : Bytes) (i j : Nat)
    (hc : transaction_chunk_path (chunked_transaction_path h) i =
      transaction_chunk_path (chunked_transaction_path h) j) : i = j := by
  simp only [transaction_chunk_path] at hc
  have := List.append_cancel_left hc
  simp only [List.cons.injEq, and_true] at this
  exact decimalBytes_injective this

theorem lookupVal_chunkStore_nc (h : Bytes) (N : Nat) (f : Nat → Bytes)
    (idxs : List Nat) (rest : Store) :
    lookupVal (chunkStore h N f idxs ++ rest)
      (chunked_transaction_num_chunks_path (chunked_transaction_path h)) =
      some (u16ToLeBytes N) := by
  rw [chunkStore, List.cons_append, lookupVal_cons, if_pos rfl]

theorem lookupVal_chunkStore_frag (h : Bytes) (N : Nat) (f : Nat → Bytes)
    (idxs : List Nat) (rest : Store)
    (hrest : ∀ kv ∈ rest, isPrefixB (chunked_transaction_path h) kv.1 = false) (i : Nat) :
    lookupVal (chunkStore h N f idxs ++ rest)
      (transaction_chunk_path (chunked_transaction_path h) i) =
      if i ∈ idxs then some (f i) else none := by
  rw [chunkStore, List.cons_append, lookupVal_cons,
    if_neg (fun hc => transaction_chunk_path_ne_nc h i hc.symm)]
  induction idxs with
  | nil =>
    rw [List.map_nil, List.nil_append, if_neg (List.not_mem_nil i)]
    rw [lookupVal_eq_none_iff]
    intro kv hkv hc
    have := hrest kv hkv
    rw [hc, show transaction_chunk_path (chunked_transaction_path h) i =
        chunked_transaction_path h ++ [decimalBytes i] from rfl, isPrefixB_append] at this
    exact absurd this (by simp)
  | cons j idxs ih =>
    simp only [List.map_cons, List.cons_append, lookupVal_cons]
    by_cases hji : j = i
    · subst hji
      simp
    · rw [if_neg (fun hc => hji (transaction_chunk_path_inj_idx h j i hc))]
      rw [ih]
      by_cases hmem : i ∈ idxs
      · rw [if_pos hmem, if_pos (by simp [hmem])]
      · rw [if_neg hmem, if_neg (by
          intro hc
          rcases List.mem_cons.mp hc with hc | hc
          · exact hji hc.symm
          · exact hmem hc)]

theorem hasChild_chunkStore_frag (h : Bytes) (N : Nat) (f : Nat → Bytes)
    (idxs : List Nat) (rest : Store)
    (hrest : ∀ kv ∈ rest, isPrefixB (chunked_transaction_path h) kv.1 = false) (i : Nat) :
    hasChild (chunkStore h N f idxs ++ rest)
      (transaction_chunk_path (chunked_transaction_path h) i) = false := by
  apply hasChild_eq_false
  intro kv hkv hpre
  rw [List.mem_append] at hkv
  rcases hkv with hkv | hkv
  · rw [chunkStore, List.mem_cons] at hkv
    rcases hkv with rfl | hkv
    · exact absurd hpre (by
        simp only [transaction_chunk_path, chunked_transaction_num_chunks_path]
        intro hc
        have := isPrefixB_eq_of_length _ _ hc (by simp)
        have h2 := List.append_cancel_left this
        simp only [List.cons.injEq, and_true] at h2
        exact decimalBytes_ne_num_chunks i h2)
    · simp only [List.mem_map] at hkv
      obtain ⟨j, _, rfl⟩ := hkv
      exact (isPrefixB_eq_of_length _ _ hpre (by simp [transaction_chunk_path])).symm
  · have := hrest kv hkv
    have h2 := isPrefixB_of_append_left (chunked_transaction_path h) [decimalBytes i] kv.1
      hpre
    rw [h2] at this
    exact absurd this (by simp)

theorem store_has_chunkStore_frag (h : Bytes) (N : Nat) (f : Nat → Bytes)
    (idxs : List Nat) (rest : Store)
    (hrest : ∀ kv ∈ rest, isPrefixB (chunked_transaction_path h) kv.1 = false) (i : Nat) :
    store_has (chunkStore h N f idxs ++ rest)
      (transaction_chunk_path (chunked_transaction_path h) i) =
      if i ∈ idxs then some .Value else none := by
  rw [store_has, lookupVal_chunkStore_frag h N f idxs rest hrest i,
    hasChild_chunkStore_frag h N f idxs rest hrest i]
  by_cases hmem : i ∈ idxs <;> simp [hmem]

theorem childSegsRaw_cons_hit (v : Bytes) (s : Store) (p : StorePath) (seg : Segment) :
    childSegsRaw ((p ++ [seg], v) :: s) p = seg :: childSegsRaw s p := by
  have hval : (if isPrefixB p (p ++ [seg]) = true then
      ((p ++ [seg]).drop p.length).head? else none) = some seg := by
    rw [if_pos (isPrefixB_append p [seg]), List.drop_left]
    rfl
  simp only [childSegsRaw, List.filterMap_cons, hval]

theorem childSegsRaw_cons_miss (k : StorePath) (v : Bytes) (s : Store) (p : StorePath)
    (hk : isPrefixB p k = false) :
    childSegsRaw ((k, v) :: s) p = childSegsRaw s p := by
  have hval : (if isPrefixB p k = true then (k.drop p.length).head? else none) = none := by
    rw [hk]
    simp
  simp only [childSegsRaw, List.filterMap_cons, hval]

theorem childSegsRaw_append (s t : Store) (p : StorePath) :
    childSegsRaw (s ++ t) p = childSegsRaw s p ++ childSegsRaw t p := by
  simp only [childSegsRaw, List.filterMap_append]

theorem childSegsRaw_none (s : Store) (p : StorePath)
    (hs : ∀ kv ∈ s, isPrefixB p kv.1 = false) : childSegsRaw s p = [] := by
  rw [childSegsRaw, List.filterMap_eq_nil_iff]
  intro kv hkv
  rw [hs kv hkv]
  simp

theorem childSegsRaw_chunkStore (h : Bytes) (N : Nat) (f : Nat → Bytes)
    (idxs : List Nat) (rest : Store)
    (hrest : ∀ kv ∈ rest, isPrefixB (chunked_transaction_path h) kv.1 = false) :
    childSegsRaw (chunkStore h N f idxs ++ rest) (chunked_transaction_path h) =
      CHUNKED_TRANSACTION_NUM_CHUNKS :: idxs.map decimalBytes := by
  rw [chunkStore, List.cons_append]
  rw [show chunked_transaction_num_chunks_path (chunked_transaction_path h) =
      chunked_transaction_path h ++ [CHUNKED_TRANSACTION_NUM_CHUNKS] from rfl]
  rw [childSegsRaw_cons_hit]
  congr 1
  rw [childSegsRaw_append, childSegsRaw_none rest _ hrest, List.append_nil]
  induction idxs with
  | nil => rfl
  | cons j idxs ih =>
    rw [List.map_cons, List.map_cons]
    rw [show transaction_chunk_path (chunked_transaction_path h) j =
        chunked_transaction_path h ++ [decimalBytes j] from rfl]
    rw [childSegsRaw_cons_hit, ih]

theorem count_chunkStore (h : Bytes) (N : Nat) (f : Nat → Bytes)
    (idxs : List Nat) (rest : Store) (hnd : idxs.Nodup)
    (hrest : ∀ kv ∈ rest, isPrefixB (chunked_transaction_path h) kv.1 = false) :
    store_count_subkeys (chunkStore h N f idxs ++ rest) (chunked_transaction_path h) =
      1 + idxs.length := by
  rw [store_count_subkeys, childSegsRaw_chunkStore h N f idxs rest hrest]
  have hnodup : (CHUNKED_TRANSACTION_NUM_CHUNKS :: idxs.map decimalBytes).Nodup := by
    rw [List.nodup_cons]
    constructor
    · intro hc
      simp only [List.mem_map] at hc
      obtain ⟨j, _, hj⟩ := hc
      exact decimalBytes_ne_num_chunks j hj
    · exact hnd.map decimalBytes_injective
  rw [List.dedup_eq_self.mpr hnodup]
  simp [Nat.add_comm]

theorem num_chunks_chunkStore (h : Bytes) (N : Nat) (f : Nat → Bytes)
    (idxs : List Nat) (rest : Store) (hN : N < 65536) :
    chunked_transaction_num_chunks_by_path (chunkStore h N f idxs ++ rest)
      (chunked_transaction_path h) = .ok N := by
  rw [chunked_transaction_num_chunks_by_path,
    store_read_slice_exact _ _ (u16ToLeBytes N) 2
      (lookupVal_chunkStore_nc h N f idxs rest) (by rw [u16ToLeBytes_length])]
  show Except.ok (leDecode ((u16ToLeBytes N).take 2)) = _
  rw [List.take_of_length_le (by rw [u16ToLeBytes_length]), leDecode_u16 N hN]

theorem get_full_go_chunkStore (h : Bytes) (N : Nat) (f : Nat → Bytes)
    (idxs : List Nat) (rest : Store) (p : Bytes)
    (hrest : ∀ kv ∈ rest, isPrefixB (chunked_transaction_path h) kv.1 = false) :
    ∀ L : List Nat, (∀ i ∈ L, i ∈ idxs → (f i).length ≤ 2 * MAX_FILE_CHUNK_SIZE) →
      get_full_transaction_go (chunkStore h N f idxs ++ rest)
        (chunked_transaction_path h) p L =
        .ok (concatAll (L.map (fun i => if i ∈ idxs then f i else p))) := by
  intro L
  induction L with
  | nil => intro _; rfl
  | cons i L ih =>
    intro hlen
    rw [get_full_transaction_go,
      store_has_chunkStore_frag h N f idxs rest hrest i]
    by_cases hmem : i ∈ idxs
    · rw [if_pos hmem]
      rw [read_transaction_chunk_data_small _ _ (f i)
        (by rw [lookupVal_chunkStore_frag h N f idxs rest hrest i, if_pos hmem])
        (hlen i (by simp) hmem)]
      rw [ih (fun x hx => hlen x (by simp [hx]))]
      simp [hmem, concatAll]
    · rw [if_neg hmem]
      rw [ih (fun x hx => hlen x (by simp [hx]))]
      simp [hmem, concatAll]

theorem delete_chunkStore (h : Bytes) (N : Nat) (f : Nat → Bytes)
    (idxs : List Nat) (rest : Store)
    (hrest : ∀ kv ∈ rest, isPrefixB (chunked_transaction_path h) kv.1 = false) :
    store_delete (chunkStore h N f idxs ++ rest) (chunked_transaction_path h) =
      .ok rest := by
  rw [store_delete]
  rw [if_pos (by
    rw [chunkStore, List.cons_append, List.any_cons]
    rw [chunked_transaction_num_chunks_path, isPrefixB_append]
    simp)]
  congr 1
  rw [chunkStore, List.cons_append, List.filter_cons]
  rw [chunked_transaction_num_chunks_path, isPrefixB_append]
  simp only [Bool.not_true, if_neg (by simp : ¬ (false = true))]
  rw [List.filter_append]
  have hr : rest.filter
      (fun kv => !isPrefixB (chunked_transaction_path h) kv.1) = rest := by
    rw [List.filter_eq_self]
    intro kv hkv
    rw [hrest kv hkv]
    rfl
  have hm : (idxs.map (fun i =>
      (transaction_chunk_path (chunked_transaction_path h) i, f i))).filter
      (fun kv => !isPrefixB (chunked_transaction_path h) kv.1) = [] := by
    rw [List.filter_eq_nil_iff]
    intro kv hkv
    simp only [List.mem_map] at hkv
    obtain ⟨j, _, rfl⟩ := hkv
    rw [transaction_chunk_path, isPrefixB_append]
    simp
  rw [hr, hm, List.nil_append]

/-- Behavior of `store_transaction_chunk` on a completeness-passing store:
the per-hash subtree holds the metadata child `N` and fragment children at
the indices in `S` (all below `N`) and `E` (all at least `N`); when the
child count `1 + |S| + |E|` reaches `N` the call reassembles by reading
each stored index below `N` and substituting the in-memory payload `p` at
every other index below `N`, deletes the subtree, and never uses the call
index `j`. -/
theorem store_transaction_chunk_complete (h : Bytes) (N : Nat) (f : Nat → Bytes)
    (S E : List Nat) (p : Bytes) (j : Nat) (rest : Store)
    (hN : N < 65536) (hE : ∀ e ∈ E, N ≤ e)
    (hnd : (S ++ E).Nodup)
    (hcount : N ≤ 1 + S.length + E.length)
    (hsmall : 1 + S.length + E.length < 65536)
    (hlen : ∀ i ∈ S, (f i).length ≤ 2 * MAX_FILE_CHUNK_SIZE)
    (hrest : ∀ kv ∈ rest, isPrefixB (chunked_transaction_path h) kv.1 = false) :
    store_transaction_chunk (chunkStore h N f (S ++ E) ++ rest) h j p
      = .ok (rest, some (concatAll ((List.range N).map
          (fun i => if i ∈ S then f i else p)))) := by
  have hcomplete : is_transaction_complete (chunkStore h N f (S ++ E) ++ rest)
      (chunked_transaction_path h) N = true := by
    rw [is_transaction_complete, count_chunkStore h N f (S ++ E) rest hnd hrest]
    simp only [List.length_append, decide_eq_true_eq]
    rw [Nat.mod_eq_of_lt (by omega)]
    omega
  have hside : ∀ i ∈ List.range N, i ∈ S ++ E →
      (f i).length ≤ 2 * MAX_FILE_CHUNK_SIZE := by
    intro i hi hmem
    rw [List.mem_range] at hi
    rcases List.mem_append.mp hmem with hs | he
    · exact hlen i hs
    · exact absurd hi (by have := hE i he; omega)
  have hmap : (List.range N).map (fun i => if i ∈ S ++ E then f i else p) =
      (List.range N).map (fun i => if i ∈ S then f i else p) := by
    apply List.map_congr_left
    intro a ha
    rw [List.mem_range] at ha
    by_cases hmem : a ∈ S
    · rw [if_pos (by rw [List.mem_append]; exact Or.inl hmem), if_pos hmem]
    · rw [if_neg hmem, if_neg (by
        intro hc
        rcases List.mem_append.mp hc with hc | hc
        · exact hmem hc
        · exact absurd ha (by have := hE a hc; omega))]
  have hfull : get_full_transaction (chunkStore h N f (S ++ E) ++ rest)
      (chunked_transaction_path h) N p
      = .ok (concatAll ((List.range N).map (fun i => if i ∈ S then f i else p))) := by
    rw [get_full_transaction,
      get_full_go_chunkStore h N f (S ++ E) rest p hrest (List.range N) hside, hmap]
  simp only [store_transaction_chunk, num_chunks_chunkStore h N f (S ++ E) rest hN,
    hcomplete, if_true, hfull, delete_chunkStore h N f (S ++ E) rest hrest]

theorem length_range_filter_ne (N m : Nat) (hm : m < N) :
    ((List.range N).filter (fun i => decide ¬(i = m))).length = N - 1 := by
  induction N with
  | zero => omega
  | succ N ih =>
    rw [List.range_succ, List.filter_append, List.length_append]
    by_cases hcase : m = N
    · subst hcase
      have hall : (List.range m).filter (fun i => decide ¬(i = m)) = List.range m := by
        rw [List.filter_eq_self]
        intro a ha
        rw [List.mem_range] at ha
        simp only [decide_eq_true_eq]
        omega
      rw [hall]
      simp [List.filter_cons, List.length_range]
    · have hm2 : m < N := by omega
      rw [ih hm2]
      have hkeep : [N].filter (fun i => decide ¬(i = m)) = [N] := by
        rw [List.filter_eq_self]
        intro a ha
        rw [List.mem_singleton] at ha
        subst ha
        simp only [decide_eq_true_eq]
        omega
      rw [hkeep]
      simp only [List.length_cons, List.length_nil]
      omega

theorem store_has_none_of_unrelated (s : Store) (p : StorePath)
    (hs : ∀ kv ∈ s, isPrefixB p kv.1 = false) : store_has s p = none := by
  have hl : lookupVal s p = none := by
    rw [lookupVal_eq_none_iff]
    intro kv hkv hc
    have := hs kv hkv
    rw [hc, isPrefixB_refl] at this
    cases this
  have hc : hasChild s p = false := by
    apply hasChild_eq_false
    intro kv hkv hpre
    exact absurd hpre (by rw [hs kv hkv]; simp)
  rw [store_has, hl, hc]

/-- C1: for a chunked transaction created with expected fragment count `N`
whose per-hash subtree holds stored fragments at every index in `[0, N)`
except exactly the index `m` (plus the metadata child), a call to
`store_transaction_chunk` with in-memory payload `p` returns `some` of the
in-order concatenation of the fragment payloads for indices `0 .. N-1`,
reading each stored fragment and substituting `p` at the absent index `m`,
and afterwards the per-hash subtree no longer exists in the store. -/
theorem c1_reassembly_correct (h : Bytes) (N m : Nat) (f : Nat → Bytes) (p : Bytes)
    (j : Nat) (rest : Store)
    (hm : m < N) (hN : N < 65536)
    (hlen : ∀ i, i < N → (f i).length ≤ 2 * MAX_FILE_CHUNK_SIZE)
    (hrest : ∀ kv ∈ rest, isPrefixB (chunked_transaction_path h) kv.1 = false) :
    store_transaction_chunk
        (chunkStore h N f ((List.range N).filter (fun i => decide ¬(i = m))) ++ rest)
        h j p
      = .ok (rest, some (concatAll ((List.range N).map
          (fun i => if i = m then p else f i)))) ∧
      store_has rest (chunked_transaction_path h) = none := by
  constructor
  · have hgen := store_transaction_chunk_complete h N f
      ((List.range N).filter (fun i => decide ¬(i = m))) [] p j rest hN
      (by intro e he; cases he)
      (by rw [List.append_nil]; exact (List.nodup_range N).filter _)
      (by rw [length_range_filter_ne N m hm]; simp only [List.length_nil]; omega)
      (by rw [length_range_filter_ne N m hm]; simp only [List.length_nil]; omega)
      (by intro i hi
          rw [List.mem_filter, List.mem_range] at hi
          exact hlen i hi.1)
      hrest
    rw [List.append_nil] at hgen
    have hmap2 : (List.range N).map
        (fun i => if i ∈ (List.range N).filter (fun i => decide ¬(i = m)) then f i else p)
        = (List.range N).map (fun i => if i = m then p else f i) := by
      apply List.map_congr_left
      intro a ha
      rw [List.mem_range] at ha
      by_cases ham : a = m
      · rw [if_pos ham, if_neg (by simp [List.mem_filter, ham])]
      · rw [if_neg ham,
          if_pos (by rw [List.mem_filter, List.mem_range]
                     exact ⟨ha, by simp [ham]⟩)]
    rw [hmap2] at hgen
    exact hgen
  · exact store_has_none_of_unrelated rest _ hrest

theorem c1_reassembly_correct_witness :
    store_transaction_chunk
        (chunkStore (List.replicate 32 0) 3 (fun i => [i])
          ((List.range 3).filter (fun i => decide ¬(i = 2))) ++ [])
        (List.replicate 32 0) 2 [9]
      = .ok ([], some (concatAll ((List.range 3).map
          (fun i => if i = 2 then [9] else [i])))) :=
  (c1_reassembly_correct (List.replicate 32 0) 3 2 (fun i => [i]) [9] 2 []
    (by decide) (by decide) (by decide) (by intro kv hkv; cases hkv)).1

/-- C10: when the completeness test passes, the fragment index `j` passed to
`store_transaction_chunk` is never used: the in-memory payload is
substituted at every index in `[0, N)` whose child path is absent (here the
indices below `N` outside `S`), even when several are absent and even when
the child path for `j` itself already holds a stored value; the result does
not depend on `j`. -/
theorem c10_call_index_unused (h : Bytes) (N : Nat) (f : Nat → Bytes)
    (S E : List Nat) (p : Bytes) (j : Nat) (rest : Store)
    (hN : N < 65536) (hE : ∀ e ∈ E, N ≤ e)
    (hnd : (S ++ E).Nodup)
    (hcount : N ≤ 1 + S.length + E.length)
    (hsmall : 1 + S.length + E.length < 65536)
    (hlen : ∀ i ∈ S, (f i).length ≤ 2 * MAX_FILE_CHUNK_SIZE)
    (hrest : ∀ kv ∈ rest, isPrefixB (chunked_transaction_path h) kv.1 = false) :
    store_transaction_chunk (chunkStore h N f (S ++ E) ++ rest) h j p
      = .ok (rest, some (concatAll ((List.range N).map
          (fun i => if i ∈ S then f i else p)))) ∧
    ∀ j2, store_transaction_chunk (chunkStore h N f (S ++ E) ++ rest) h j2 p =
      store_transaction_chunk (chunkStore h N f (S ++ E) ++ rest) h j p := by
  refine ⟨store_transaction_chunk_complete h N f S E p j rest hN hE hnd hcount hsmall
    hlen hrest, fun j2 => ?_⟩
  rw [store_transaction_chunk_complete h N f S E p j rest hN hE hnd hcount hsmall
    hlen hrest,
    store_transaction_chunk_complete h N f S E p j2 rest hN hE hnd hcount hsmall
    hlen hrest]

theorem c10_call_index_unused_witness :
    store_transaction_chunk
        (chunkStore (List.replicate 32 0) 3 (fun i => [i]) ([0] ++ [10, 11]) ++ [])
        (List.replicate 32 0) 0 [7]
      = .ok ([], some (concatAll ((List.range 3).map
          (fun i => if i ∈ [0] then [i] else [7])))) :=
  (c10_call_index_unused (List.replicate 32 0) 3 (fun i => [i]) [0] [10, 11] [7] 0 []
    (by decide) (by decide) (by decide) (by decide) (by decide) (by decide)
    (by intro kv hkv; cases hkv)).1

/-- C2: for a chunked transaction whose metadata value decodes to `N`, the
completeness test used by `store_transaction_chunk` returns true exactly
when the number of distinct direct children of the per-hash subtree (which
includes the metadata child) is at least `N`; stated for subtrees whose
child count fits the `u16` cast performed by the code. -/
theorem c2_completeness_test (s : Store) (ctp : StorePath) (N : Nat)
    (hN : chunked_transaction_num_chunks_by_path s ctp = .ok N)
    (hcard : store_count_subkeys s ctp < 65536) :
    is_transaction_complete s ctp N = true ↔ N ≤ (directChildren s ctp).card := by
  have hc : (directChildren s ctp).card = store_count_subkeys s ctp := by
    rw [directChildren, List.card_toFinset, store_count_subkeys]
  rw [hc, is_transaction_complete, Nat.mod_eq_of_lt hcard]
  simp

theorem c2_completeness_test_witness :
    is_transaction_complete
        [(chunked_transaction_num_chunks_path (chunked_transaction_path (List.replicate 32 0)),
            [2, 0]),
         (transaction_chunk_path (chunked_transaction_path (List.replicate 32 0)) 0, [7])]
        (chunked_transaction_path (List.replicate 32 0)) 2 = true ↔
      2 ≤ (directChildren
        [(chunked_transaction_num_chunks_path (chunked_transaction_path (List.replicate 32 0)),
            [2, 0]),
         (transaction_chunk_path (chunked_transaction_path (List.replicate 32 0)) 0, [7])]
        (chunked_transaction_path (List.replicate 32 0))).card :=
  c2_completeness_test _ _ 2 (by decide) (by decide)

/-- C3 counterexample: with expected count 2 and no fragment stored, the
transaction is not yet complete; submitting fragment `(0, [7])` once stores
it, but submitting the same fragment a second time triggers the completion
branch: it returns `some [7, 7]` and deletes the subtree, so the stored
bytes under the fragment child path after two submissions (absent) differ
from after one submission (`[7]`). -/
theorem c3_counterexample :
    create_chunked_transaction [] (List.replicate 32 0) 2 =
      .ok [(chunked_transaction_num_chunks_path
              (chunked_transaction_path (List.replicate 32 0)), [2, 0])] ∧
    store_transaction_chunk
        [(chunked_transaction_num_chunks_path
            (chunked_transaction_path (List.replicate 32 0)), [2, 0])]
        (List.replicate 32 0) 0 [7] =
      .ok ([(chunked_transaction_num_chunks_path
              (chunked_transaction_path (List.replicate 32 0)), [2, 0]),
            (transaction_chunk_path (chunked_transaction_path (List.replicate 32 0)) 0, [7])],
           none) ∧
    store_transaction_chunk
        [(chunked_transaction_num_chunks_path
            (chunked_transaction_path (List.replicate 32 0)), [2, 0]),
         (transaction_chunk_path (chunked_transaction_path (List.replicate 32 0)) 0, [7])]
        (List.replicate 32 0) 0 [7] =
      .ok ([], some [7, 7]) ∧
    lookupVal ([] : Store)
      (transaction_chunk_path (chunked_transaction_path (List.replicate 32 0)) 0) = none :=
  ⟨by decide, by decide, by decide, rfl⟩

theorem store_transaction_chunk_data_spec (s : Store) (tcp : StorePath) (d : Bytes) :
    ∃ s2, store_transaction_chunk_data s tcp d = .ok s2 ∧
      (lookupVal s2 tcp).isSome = true ∧
      (∀ q, q ≠ tcp → lookupVal s2 q = lookupVal s q) ∧
      (∀ v, lookupVal s tcp = some v → s2 = s) := by
  cases hl : lookupVal s tcp with
  | some v =>
    exact ⟨s, store_transaction_chunk_data_present s tcp d v hl, by rw [hl]; rfl,
      fun q _ => rfl, fun _ _ => rfl⟩
  | none =>
    refine ⟨setVal s tcp d, store_transaction_chunk_data_absent s tcp d hl, ?_, ?_, ?_⟩
    · rw [lookupVal_setVal, if_pos rfl]
      rfl
    · intro q hq
      rw [lookupVal_setVal, if_neg (fun hc => hq hc.symm)]
    · intro v hv
      cases hv

theorem store_transaction_chunk_incomplete (s : Store) (h : Bytes) (i : Nat) (d : Bytes)
    (N : Nat) (s1 : Store)
    (hN : chunked_transaction_num_chunks_by_path s (chunked_transaction_path h) = .ok N)
    (hc : is_transaction_complete s (chunked_transaction_path h) N = false)
    (hd : store_transaction_chunk_data s
      (transaction_chunk_path (chunked_transaction_path h) i) d = .ok s1) :
    store_transaction_chunk s h i d = .ok (s1, none) := by
  simp only [store_transaction_chunk, hN, hc, Bool.false_eq_true, if_false, hd]

theorem num_chunks_congr (s t : Store) (ctp : StorePath)
    (hl : lookupVal t (chunked_transaction_num_chunks_path ctp) =
      lookupVal s (chunked_transaction_num_chunks_path ctp)) :
    chunked_transaction_num_chunks_by_path t ctp =
      chunked_transaction_num_chunks_by_path s ctp := by
  rw [chunked_transaction_num_chunks_by_path, chunked_transaction_num_chunks_by_path,
    store_read_slice, store_read_slice, store_read, store_read, hl]

/-- C3 (amended): for a chunked transaction that is not yet complete at the
first submission and still not complete after it, submitting the same
fragment index twice (second payload possibly different) leaves the store
exactly as after one submission and returns no error, and a value already
present under the fragment child path is never overwritten.  (As stated,
the claim fails when the first submission itself raises the child count to
the expected total: the second submission then takes the completion branch
and deletes the subtree — see the counterexample.) -/
theorem c3_idempotent_fragment (s : Store) (h : Bytes) (i : Nat) (d d2 : Bytes)
    (N : Nat) (s1 : Store)
    (hN : chunked_transaction_num_chunks_by_path s (chunked_transaction_path h) = .ok N)
    (hc1 : is_transaction_complete s (chunked_transaction_path h) N = false)
    (h1 : store_transaction_chunk s h i d = .ok (s1, none))
    (hc2 : is_transaction_complete s1 (chunked_transaction_path h) N = false) :
    store_transaction_chunk s1 h i d2 = .ok (s1, none) ∧
    (∀ v, lookupVal s (transaction_chunk_path (chunked_transaction_path h) i) = some v →
      lookupVal s1 (transaction_chunk_path (chunked_transaction_path h) i) = some v) := by
  obtain ⟨s2, hd, hsome, hframe, hpres⟩ := store_transaction_chunk_data_spec s
    (transaction_chunk_path (chunked_transaction_path h) i) d
  have h1b := store_transaction_chunk_incomplete s h i d N s2 hN hc1 hd
  rw [h1] at h1b
  have hs : s1 = s2 := by
    have := h1b.symm
    simp only [Except.ok.injEq, Prod.mk.injEq, and_true] at this
    exact this.symm
  subst hs
  have hN2 : chunked_transaction_num_chunks_by_path s1 (chunked_transaction_path h) =
      .ok N := by
    rw [num_chunks_congr s s1 (chunked_transaction_path h)
      (hframe _ (fun hc => transaction_chunk_path_ne_nc h i hc.symm)), hN]
  obtain ⟨v2, hv2⟩ := Option.isSome_iff_exists.mp hsome
  constructor
  · exact store_transaction_chunk_incomplete s1 h i d2 N s1 hN2 hc2
      (store_transaction_chunk_data_present s1 _ d2 v2 hv2)
  · intro v hv
    rw [hpres v hv, hv]

theorem c3_idempotent_fragment_witness :
    store_transaction_chunk
        [(chunked_transaction_num_chunks_path
            (chunked_transaction_path (List.replicate 32 0)), [3, 0]),
         (transaction_chunk_path (chunked_transaction_path (List.replicate 32 0)) 0, [1])]
        (List.replicate 32 0) 0 [2] =
      .ok ([(chunked_transaction_num_chunks_path
              (chunked_transaction_path (List.replicate 32 0)), [3, 0]),
            (transaction_chunk_path (chunked_transaction_path (List.replicate 32 0)) 0, [1])],
           none) :=
  (c3_idempotent_fragment
    [(chunked_transaction_num_chunks_path
        (chunked_transaction_path (List.replicate 32 0)), [3, 0])]
    (List.replicate 32 0) 0 [1] [2] 3
    [(chunked_transaction_num_chunks_path
        (chunked_transaction_path (List.replicate 32 0)), [3, 0]),
     (transaction_chunk_path (chunked_transaction_path (List.replicate 32 0)) 0, [1])]
    (by decide) (by decide) (by decide) (by decide)).1

/-- C4 (amended): a fragment payload whose length exceeds the
per-value cap of the store but is at most twice the cap is written fresh as two physical
writes — bytes `[0, cap)` at offset 0 and the remainder at offset `cap` —
resulting in the full payload stored under the path, and the two-segment
read reassembles exactly the original payload.  (As stated, the claim fails
for payloads longer than twice the cap: the read only returns the first
`2 * cap` bytes — see the counterexample.) -/
theorem c4_split_roundtrip (s : Store) (tcp : StorePath) (d : Bytes)
    (hlen1 : MAX_FILE_CHUNK_SIZE < d.length)
    (hlen2 : d.length ≤ 2 * MAX_FILE_CHUNK_SIZE)
    (habs : lookupVal s tcp = none) :
    store_transaction_chunk_data s tcp d = .ok (setVal s tcp d) ∧
    lookupVal (setVal s tcp d) tcp = some d ∧
    read_transaction_chunk_data (setVal s tcp d) tcp = .ok d := by
  have hset : lookupVal (setVal s tcp d) tcp = some d := by
    rw [lookupVal_setVal, if_pos rfl]
  exact ⟨store_transaction_chunk_data_absent s tcp d habs, hset,
    read_transaction_chunk_data_small _ _ d hset hlen2⟩

theorem c4_split_roundtrip_witness :
    read_transaction_chunk_data
      (setVal [] (transaction_chunk_path (chunked_transaction_path (List.replicate 32 0)) 0)
        (List.replicate 2049 3))
      (transaction_chunk_path (chunked_transaction_path (List.replicate 32 0)) 0) =
      .ok (List.replicate 2049 3) :=
  (c4_split_roundtrip []
    (transaction_chunk_path (chunked_transaction_path (List.replicate 32 0)) 0)
    (List.replicate 2049 3)
    (by norm_num [List.length_replicate, MAX_FILE_CHUNK_SIZE])
    (by norm_num [List.length_replicate, MAX_FILE_CHUNK_SIZE]) rfl).2.2

/-- C4 counterexample: a 4097-byte payload (more than twice the 2048-byte
cap) is stored in full by the two writes, but the read reassembles only the
first 4096 bytes, so read-after-write is not the identity on it. -/
theorem c4_counterexample :
    store_transaction_chunk_data []
        (transaction_chunk_path (chunked_transaction_path (List.replicate 32 0)) 0)
        (List.replicate 4097 3) =
      .ok (setVal []
        (transaction_chunk_path (chunked_transaction_path (List.replicate 32 0)) 0)
        (List.replicate 4097 3)) ∧
    read_transaction_chunk_data
        (setVal [] (transaction_chunk_path (chunked_transaction_path (List.replicate 32 0)) 0)
          (List.replicate 4097 3))
        (transaction_chunk_path (chunked_transaction_path (List.replicate 32 0)) 0) =
      .ok (List.replicate 4096 3) ∧
    List.replicate 4096 3 ≠ List.replicate 4097 3 := by
  refine ⟨store_transaction_chunk_data_absent _ _ _ rfl, ?_, ?_⟩
  · rw [read_transaction_chunk_data_of_lookup _ _ (List.replicate 4097 3)
      (by rw [lookupVal_setVal, if_pos rfl])]
    norm_num [List.take_replicate, MAX_FILE_CHUNK_SIZE]
  · intro hc
    have := congrArg List.length hc
    simp only [List.length_replicate] at this
    omega

/-- C6 (amended): when the chunked-transaction metadata child was never
written, reading the expected chunk count — and hence any
`store_transaction_chunk` call for that hash — fails with a store error
rather than returning a default; and a stored metadata value SHORTER than
the expected 2 bytes fails with the decode error `InvalidLoadValue`
carrying expected length 2 and the actual length.  (As stated, the claim
fails for stored sizes larger than 2: the 2-byte buffered read accepts
them, decoding the first two bytes — see the counterexample.) -/
theorem c6_metadata_errors :
    (∀ (s : Store) (h : Bytes) (i : Nat) (d : Bytes),
      lookupVal s (chunked_transaction_num_chunks_path (chunked_transaction_path h)) =
        none →
      chunked_transaction_num_chunks_by_path s (chunked_transaction_path h) =
        .error .storeNotFound ∧
      store_transaction_chunk s h i d = .error .storeNotFound) ∧
    (∀ (s : Store) (ctp : StorePath) (v : Bytes),
      lookupVal s (chunked_transaction_num_chunks_path ctp) = some v → v.length < 2 →
      chunked_transaction_num_chunks_by_path s ctp =
        .error (.invalidLoadValue 2 v.length)) := by
  constructor
  · intro s h i d hl
    have hnum : chunked_transaction_num_chunks_by_path s (chunked_transaction_path h) =
        .error .storeNotFound := by
      rw [chunked_transaction_num_chunks_by_path, store_read_slice, store_read, hl]
    exact ⟨hnum, by simp only [store_transaction_chunk, hnum]⟩
  · intro s ctp v hl hv
    rw [chunked_transaction_num_chunks_by_path, store_read_slice_short s _ v 2 hl hv]

theorem c6_metadata_errors_witness :
    chunked_transaction_num_chunks_by_path []
        (chunked_transaction_path (List.replicate 32 0)) = .error .storeNotFound ∧
    chunked_transaction_num_chunks_by_path
        [(chunked_transaction_num_chunks_path
            (chunked_transaction_path (List.replicate 32 0)), [5])]
        (chunked_transaction_path (List.replicate 32 0)) =
      .error (.invalidLoadValue 2 1) :=
  ⟨(c6_metadata_errors.1 [] (List.replicate 32 0) 0 [] rfl).1,
   c6_metadata_errors.2
     [(chunked_transaction_num_chunks_path
         (chunked_transaction_path (List.replicate 32 0)), [5])]
     (chunked_transaction_path (List.replicate 32 0)) [5] (by decide) (by decide)⟩

/-- C6 counterexample: a stored metadata value of 3 bytes — size differing
from the expected 2 — is accepted: the read returns `.ok 1` (decoding the
first two bytes `[1, 0]`) instead of failing with `InvalidLoadValue`. -/
theorem c6_counterexample :
    lookupVal
        [(chunked_transaction_num_chunks_path
            (chunked_transaction_path (List.replicate 32 0)), [1, 0, 9])]
        (chunked_transaction_num_chunks_path
          (chunked_transaction_path (List.replicate 32 0))) = some [1, 0, 9] ∧
    chunked_transaction_num_chunks_by_path
        [(chunked_transaction_num_chunks_path
            (chunked_transaction_path (List.replicate 32 0)), [1, 0, 9])]
        (chunked_transaction_path (List.replicate 32 0)) = .ok 1 :=
  ⟨by decide, by decide⟩

/-! ### Block storage lemmas (C5, C9) -/

theorem concatAll_nil : concatAll [] = [] := rfl

theorem concatAll_cons (t : Bytes) (ts : List Bytes) :
    concatAll (t :: ts) = t ++ concatAll ts := rfl

theorem concatAll_length_32 (txs : List Bytes) (hl : ∀ t ∈ txs, t.length = 32) :
    (concatAll txs).length = 32 * txs.length := by
  induction txs with
  | nil => rfl
  | cons t ts ih =>
    rw [concatAll_cons, List.length_append, List.length_cons,
      ih (fun x hx => hl x (by simp [hx])), hl t (by simp)]
    ring

theorem snoc_ne_of_ne (p : StorePath) (a b : Segment) (hab : a ≠ b) :
    p ++ [a] ≠ p ++ [b] :=
  fun hc => hab (by simpa using List.append_cancel_left hc)

theorem current_field_ne_block_field (n : Nat) (a b : Segment) :
    EVM_CURRENT_BLOCK ++ [a] ≠ block_path n ++ [b] := by
  intro hc
  rw [show EVM_CURRENT_BLOCK =
      [strBytes ("evm"), strBytes ("blocks"), strBytes ("current")] from rfl,
    show block_path n = [strBytes ("evm"), strBytes ("blocks"), decimalBytes n] from rfl] at hc
  simp only [List.cons_append, List.nil_append, List.cons.injEq] at hc
  exact decimalBytes_ne_current n hc.2.2.1.symm

theorem store_write_zero_spec (s : Store) (p : StorePath) (d : Bytes) :
    ∃ s2, store_write s p d 0 = .ok s2 ∧
      (∀ q, q ≠ p → lookupVal s2 q = lookupVal s q) ∧
      (∃ tail, lookupVal s2 p = some (d ++ tail)) ∧
      ((∀ w, lookupVal s p = some w → w.length ≤ d.length) →
        lookupVal s2 p = some d) := by
  cases hl : lookupVal s p with
  | none =>
    refine ⟨setVal s p d, store_write_absent s p d hl, ?_, ⟨[], ?_⟩, ?_⟩
    · intro q hq
      rw [lookupVal_setVal, if_neg (fun hc => hq hc.symm)]
    · rw [lookupVal_setVal, if_pos rfl, List.append_nil]
    · intro _
      rw [lookupVal_setVal, if_pos rfl]
  | some v =>
    refine ⟨setVal s p (d ++ v.drop d.length), store_write_zero s p d v hl, ?_,
      ⟨v.drop d.length, ?_⟩, ?_⟩
    · intro q hq
      rw [lookupVal_setVal, if_neg (fun hc => hq hc.symm)]
    · rw [lookupVal_setVal, if_pos rfl]
    · intro hshort
      rw [lookupVal_setVal, if_pos rfl, List.drop_eq_nil_of_le (hshort v rfl),
        List.append_nil]

theorem store_current_block_nodebug_frame (s : Store) (b : L2Block) :
    ∃ s2, store_current_block_nodebug s b = .ok s2 ∧
      (∀ q, q ≠ EVM_CURRENT_BLOCK ++ [BLOCKS_NUMBER] →
        q ≠ block_path b.number ++ [BLOCKS_NUMBER] →
        q ≠ block_path b.number ++ [BLOCKS_HASH] →
        q ≠ block_path b.number ++ [BLOCKS_TRANSACTIONS] →
        lookupVal s2 q = lookupVal s q) ∧
      (∃ tail, lookupVal s2 (EVM_CURRENT_BLOCK ++ [BLOCKS_NUMBER]) =
        some (u256ToLeBytes b.number ++ tail)) ∧
      ((∀ w, lookupVal s (block_path b.number ++ [BLOCKS_NUMBER]) = some w →
          w.length ≤ 32) →
        lookupVal s2 (block_path b.number ++ [BLOCKS_NUMBER]) =
          some (u256ToLeBytes b.number)) ∧
      ((∀ w, lookupVal s (block_path b.number ++ [BLOCKS_HASH]) = some w →
          w.length ≤ b.hash.length) →
        lookupVal s2 (block_path b.number ++ [BLOCKS_HASH]) = some b.hash) ∧
      ((∀ w, lookupVal s (block_path b.number ++ [BLOCKS_TRANSACTIONS]) = some w →
          w.length ≤ (concatAll b.transactions).length) →
        lookupVal s2 (block_path b.number ++ [BLOCKS_TRANSACTIONS]) =
          some (concatAll b.transactions)) := by
  obtain ⟨sa, hwa, hfa, hta, hea⟩ :=
    store_write_zero_spec s (EVM_CURRENT_BLOCK ++ [BLOCKS_NUMBER]) (u256ToLeBytes b.number)
  obtain ⟨sb, hwb, hfb, htb, heb⟩ :=
    store_write_zero_spec sa (block_path b.number ++ [BLOCKS_NUMBER])
      (u256ToLeBytes b.number)
  obtain ⟨sc, hwc, hfc, htc, hec⟩ :=
    store_write_zero_spec sb (block_path b.number ++ [BLOCKS_HASH]) b.hash
  obtain ⟨sd, hwd, hfd, htd, hed⟩ :=
    store_write_zero_spec sc (block_path b.number ++ [BLOCKS_TRANSACTIONS])
      (concatAll b.transactions)
  have hrun : store_current_block_nodebug s b = .ok sd := by
    simp only [store_current_block_nodebug, store_block_number, hwa,
      store_block_by_number, store_block, store_block_hash, store_block_transactions,
      hwb, hwc, hwd]
  have hne_nh : (block_path b.number ++ [BLOCKS_NUMBER]) ≠
      block_path b.number ++ [BLOCKS_HASH] :=
    snoc_ne_of_ne _ _ _ (by decide)
  have hne_nt : (block_path b.number ++ [BLOCKS_NUMBER]) ≠
      block_path b.number ++ [BLOCKS_TRANSACTIONS] :=
    snoc_ne_of_ne _ _ _ (by decide)
  have hne_ht : (block_path b.number ++ [BLOCKS_HASH]) ≠
      block_path b.number ++ [BLOCKS_TRANSACTIONS] :=
    snoc_ne_of_ne _ _ _ (by decide)
  refine ⟨sd, hrun, ?_, ?_, ?_, ?_, ?_⟩
  · intro q h1 h2 h3 h4
    rw [hfd q h4, hfc q h3, hfb q h2, hfa q h1]
  · obtain ⟨tail, htail⟩ := hta
    refine ⟨tail, ?_⟩
    rw [hfd _ (current_field_ne_block_field b.number _ _),
      hfc _ (current_field_ne_block_field b.number _ _),
      hfb _ (current_field_ne_block_field b.number _ _), htail]
  · intro hshort
    rw [hfd _ hne_nt, hfc _ hne_nh]
    refine heb (fun w hw => ?_)
    rw [u256ToLeBytes_length]
    refine hshort w ?_
    rw [← hfa _ (fun hc => current_field_ne_block_field b.number _ _ hc.symm)]
    exact hw
  · intro hshort
    rw [hfd _ hne_ht]
    refine hec (fun w hw => ?_)
    refine hshort w ?_
    rw [← hfa _ (fun hc => current_field_ne_block_field b.number _ _ hc.symm),
      ← hfb _ (fun hc => hne_nh hc.symm)]
    exact hw
  · intro hshort
    refine hed (fun w hw => ?_)
    refine hshort w ?_
    rw [← hfa _ (fun hc => current_field_ne_block_field b.number _ _ hc.symm),
      ← hfb _ (fun hc => hne_nt hc.symm), ← hfc _ (fun hc => hne_ht hc.symm)]
    exact hw

/-- C9: a successful `store_current_block` writes only the number field of the
pointer under the current-block path plus the three block fields (number,
hash, transactions) under its numbered path: every other path keeps its
value, and in particular no hash or transactions value is persisted under
the pointer path. -/
theorem c9_store_current_block_frame (s : Store) (b : L2Block) (s2 : Store)
    (hw : store_current_block_nodebug s b = .ok s2) (q : StorePath)
    (h1 : q ≠ EVM_CURRENT_BLOCK ++ [BLOCKS_NUMBER])
    (h2 : q ≠ block_path b.number ++ [BLOCKS_NUMBER])
    (h3 : q ≠ block_path b.number ++ [BLOCKS_HASH])
    (h4 : q ≠ block_path b.number ++ [BLOCKS_TRANSACTIONS]) :
    lookupVal s2 q = lookupVal s q ∧
    lookupVal s2 (EVM_CURRENT_BLOCK ++ [BLOCKS_HASH]) =
      lookupVal s (EVM_CURRENT_BLOCK ++ [BLOCKS_HASH]) ∧
    lookupVal s2 (EVM_CURRENT_BLOCK ++ [BLOCKS_TRANSACTIONS]) =
      lookupVal s (EVM_CURRENT_BLOCK ++ [BLOCKS_TRANSACTIONS]) := by
  obtain ⟨s2b, hwb, hframe, _⟩ := store_current_block_nodebug_frame s b
  have hs : s2b = s2 := by
    rw [hw] at hwb
    injection hwb.symm
  subst hs
  refine ⟨hframe q h1 h2 h3 h4, hframe _ ?_ ?_ ?_ ?_, hframe _ ?_ ?_ ?_ ?_⟩
  · exact snoc_ne_of_ne _ _ _ (by decide)
  · exact current_field_ne_block_field b.number _ _
  · exact current_field_ne_block_field b.number _ _
  · exact current_field_ne_block_field b.number _ _
  · exact snoc_ne_of_ne _ _ _ (by decide)
  · exact current_field_ne_block_field b.number _ _
  · exact current_field_ne_block_field b.number _ _
  · exact current_field_ne_block_field b.number _ _

theorem c9_store_current_block_frame_witness :
    lookupVal
        [(EVM_CURRENT_BLOCK ++ [BLOCKS_NUMBER], u256ToLeBytes 1),
         (block_path 1 ++ [BLOCKS_NUMBER], u256ToLeBytes 1),
         (block_path 1 ++ [BLOCKS_HASH], List.replicate 32 5),
         (block_path 1 ++ [BLOCKS_TRANSACTIONS], [])]
        [strBytes ("other")] = lookupVal [] [strBytes ("other")] :=
  (c9_store_current_block_frame [] (L2Block.mk 1 (List.replicate 32 5) [])
    [(EVM_CURRENT_BLOCK ++ [BLOCKS_NUMBER], u256ToLeBytes 1),
     (block_path 1 ++ [BLOCKS_NUMBER], u256ToLeBytes 1),
     (block_path 1 ++ [BLOCKS_HASH], List.replicate 32 5),
     (block_path 1 ++ [BLOCKS_TRANSACTIONS], [])]
    (by decide) [strBytes ("other")] (by decide) (by decide) (by decide) (by decide)).1

theorem chunks32_nil : chunks32 [] = [] := by
  rw [chunks32]
  simp

theorem chunks32_cons (l : Bytes) (h : l ≠ []) :
    chunks32 l = l.take 32 :: chunks32 (l.drop 32) := by
  rw [chunks32]
  simp [h]

theorem chunks32_filter_concatAll (txs : List Bytes)
    (hl : ∀ t ∈ txs, t.length = 32) :
    (chunks32 (concatAll txs)).filter (fun c => decide (c.length = 32)) = txs := by
  induction txs with
  | nil =>
    rw [concatAll_nil, chunks32_nil]
    rfl
  | cons t ts ih =>
    rw [concatAll_cons]
    have ht : t.length = 32 := hl t (by simp)
    have hne : t ++ concatAll ts ≠ [] := by
      intro hc
      have := congrArg List.length hc
      rw [List.length_append, ht] at this
      simp at this
    rw [chunks32_cons _ hne]
    have htake : (t ++ concatAll ts).take 32 = t := by
      conv_lhs => rw [← ht]
      exact List.take_left t _
    have hdrop : (t ++ concatAll ts).drop 32 = concatAll ts := by
      conv_lhs => rw [← ht]
      exact List.drop_left t _
    rw [htake, hdrop, List.filter_cons, if_pos (by simp [ht])]
    rw [ih (fun x hx => hl x (by simp [hx]))]

theorem read_current_block_number_of_lookup (s : Store) (n : Nat) (tail : Bytes)
    (hl : lookupVal s (EVM_CURRENT_BLOCK ++ [BLOCKS_NUMBER]) =
      some (u256ToLeBytes n ++ tail))
    (hn : n < 2 ^ 64) :
    read_current_block_number s = .ok n := by
  rw [read_current_block_number,
    store_read_slice_exact s _ _ 8 hl
      (by rw [List.length_append, u256ToLeBytes_length]; omega)]
  show Except.ok (leDecode ((u256ToLeBytes n ++ tail).take 8)) = _
  rw [List.take_append_of_le_length (by rw [u256ToLeBytes_length]; omega),
    leDecode_take8_u256 n hn]

theorem store_read_of_lookup (s : Store) (p : StorePath) (v : Bytes) (maxBytes : Nat)
    (hv : lookupVal s p = some v) :
    store_read s p 0 maxBytes = .ok (v.take maxBytes) := by
  simp only [store_read, hv, Nat.zero_le, if_pos, List.drop_zero]

theorem read_nth_block_transactions_of_stored (s : Store) (bp : StorePath)
    (txs : List Bytes)
    (hl : ∀ t ∈ txs, t.length = 32) (hcount : txs.length ≤ 128)
    (hv : lookupVal s (bp ++ [BLOCKS_TRANSACTIONS]) = some (concatAll txs)) :
    read_nth_block_transactions s bp = .ok txs := by
  have hsize : store_value_size s (bp ++ [BLOCKS_TRANSACTIONS]) =
      .ok (concatAll txs).length := by
    rw [store_value_size, hv]
  have h32 := concatAll_length_32 txs hl
  by_cases hzero : (concatAll txs).length = 0
  · have htxs : txs = [] := by
      rw [h32] at hzero
      exact List.length_eq_zero.mp (by omega)
    subst htxs
    simp only [read_nth_block_transactions, store_read_empty_safe, hsize, concatAll_nil,
      List.length_nil, if_pos]
    rw [chunks32_nil]
    rfl
  · have hread := store_read_of_lookup s (bp ++ [BLOCKS_TRANSACTIONS]) (concatAll txs)
      MAX_TRANSACTION_HASHES hv
    rw [List.take_of_length_le
      (by rw [h32]; simp only [MAX_TRANSACTION_HASHES]; omega)] at hread
    simp only [read_nth_block_transactions, store_read_empty_safe, hsize,
      if_neg hzero, hread]
    rw [chunks32_filter_concatAll txs hl]

/-- C5 (amended): for a block whose number fits in 64 bits, whose
transaction list has at most 128 hashes of 32 bytes and whose hash is 32
bytes, writing it with `store_current_block` into any store whose existing
values under the three numbered field paths of the block (if present) are
no longer than the newly written ones — with no condition at all on the
current-block pointer path, so repeated pointer updates are covered —
makes `read_current_block_number` return exactly the number of the block,
and `read_current_block` return the block rebuilt by `L2Block::new` from
the stored number and transaction list: number and transactions preserved,
while the hash field is not read back (the constructor sets it; see the
counterexample), and the full block (number, hash, transaction
concatenation) is independently retrievable under its numbered path.
(As stated, the claim fails in three ways, each shown by the
counterexample: pointer reads truncate numbers to 64 bits, the stored hash
is not returned by the read, and a shorter transactions value spliced over
a longer stale one leaves trailing stale hashes.) -/
theorem c5_current_block_roundtrip (s : Store) (b : L2Block) (s2 : Store)
    (hnum : b.number < 2 ^ 64)
    (hcount : b.transactions.length ≤ 128)
    (hlen : ∀ t ∈ b.transactions, t.length = 32)
    (hhash : b.hash.length = 32)
    (h2 : ∀ w, lookupVal s (block_path b.number ++ [BLOCKS_NUMBER]) = some w →
      w.length ≤ 32)
    (h3 : ∀ w, lookupVal s (block_path b.number ++ [BLOCKS_HASH]) = some w →
      w.length ≤ 32)
    (h4 : ∀ w, lookupVal s (block_path b.number ++ [BLOCKS_TRANSACTIONS]) = some w →
      w.length ≤ (concatAll b.transactions).length)
    (hw : store_current_block_nodebug s b = .ok s2) :
    read_current_block_number s2 = .ok b.number ∧
    read_current_block_nodebug s2 = .ok (L2Block.new b.number b.transactions) ∧
    (L2Block.new b.number b.transactions).number = b.number ∧
    (L2Block.new b.number b.transactions).transactions = b.transactions ∧
    lookupVal s2 (block_path b.number ++ [BLOCKS_NUMBER]) =
      some (u256ToLeBytes b.number) ∧
    lookupVal s2 (block_path b.number ++ [BLOCKS_HASH]) = some b.hash ∧
    lookupVal s2 (block_path b.number ++ [BLOCKS_TRANSACTIONS]) =
      some (concatAll b.transactions) ∧
    read_nth_block_transactions s2 (block_path b.number) = .ok b.transactions := by
  obtain ⟨s2b, hwb, _, ht1, he2, he3, he4⟩ := store_current_block_nodebug_frame s b
  rw [hw] at hwb
  have hs : s2 = s2b := by injection hwb
  subst hs
  obtain ⟨tail, htail⟩ := ht1
  have hl2 : lookupVal s2 (block_path b.number ++ [BLOCKS_NUMBER]) =
      some (u256ToLeBytes b.number) := he2 h2
  have hl3 : lookupVal s2 (block_path b.number ++ [BLOCKS_HASH]) = some b.hash :=
    he3 (fun w hw2 => by rw [hhash]; exact h3 w hw2)
  have hl4 : lookupVal s2 (block_path b.number ++ [BLOCKS_TRANSACTIONS]) =
      some (concatAll b.transactions) := he4 h4
  have hr1 : read_current_block_number s2 = .ok b.number :=
    read_current_block_number_of_lookup s2 b.number tail htail hnum
  have hr4 : read_nth_block_transactions s2 (block_path b.number) = .ok b.transactions :=
    read_nth_block_transactions_of_stored s2 _ b.transactions hlen hcount hl4
  refine ⟨hr1, ?_, rfl, rfl, hl2, hl3, hl4, hr4⟩
  simp only [read_current_block_nodebug, hr1, hr4]

theorem c5_current_block_roundtrip_witness :
    read_current_block_number
        [(EVM_CURRENT_BLOCK ++ [BLOCKS_NUMBER], u256ToLeBytes 2),
         (block_path 2 ++ [BLOCKS_NUMBER], u256ToLeBytes 2),
         (block_path 2 ++ [BLOCKS_HASH], List.replicate 32 5),
         (block_path 2 ++ [BLOCKS_TRANSACTIONS], List.replicate 32 9)] = .ok 2 :=
  (c5_current_block_roundtrip
    [(EVM_CURRENT_BLOCK ++ [BLOCKS_NUMBER], u256ToLeBytes 1)]
    (L2Block.mk 2 (List.replicate 32 5) [List.replicate 32 9])
    [(EVM_CURRENT_BLOCK ++ [BLOCKS_NUMBER], u256ToLeBytes 2),
     (block_path 2 ++ [BLOCKS_NUMBER], u256ToLeBytes 2),
     (block_path 2 ++ [BLOCKS_HASH], List.replicate 32 5),
     (block_path 2 ++ [BLOCKS_TRANSACTIONS], List.replicate 32 9)]
    (by decide) (by decide) (by decide) (by decide)
    (by intro w hw2
        rw [(by decide : lookupVal
          [(EVM_CURRENT_BLOCK ++ [BLOCKS_NUMBER], u256ToLeBytes 1)]
          (block_path 2 ++ [BLOCKS_NUMBER]) = (none : Option Bytes))] at hw2
        simp at hw2)
    (by intro w hw2
        rw [(by decide : lookupVal
          [(EVM_CURRENT_BLOCK ++ [BLOCKS_NUMBER], u256ToLeBytes 1)]
          (block_path 2 ++ [BLOCKS_HASH]) = (none : Option Bytes))] at hw2
        simp at hw2)
    (by intro w hw2
        rw [(by decide : lookupVal
          [(EVM_CURRENT_BLOCK ++ [BLOCKS_NUMBER], u256ToLeBytes 1)]
          (block_path 2 ++ [BLOCKS_TRANSACTIONS]) = (none : Option Bytes))] at hw2
        simp at hw2)
    (by decide)).1

/-- The store produced by storing a block numbered `2 ^ 64` into the empty
store. -/
def c5StoreA : Store :=
  [(EVM_CURRENT_BLOCK ++ [BLOCKS_NUMBER], u256ToLeBytes (2 ^ 64)),
   (block_path (2 ^ 64) ++ [BLOCKS_NUMBER], u256ToLeBytes (2 ^ 64)),
   (block_path (2 ^ 64) ++ [BLOCKS_HASH], List.replicate 32 0),
   (block_path (2 ^ 64) ++ [BLOCKS_TRANSACTIONS], [])]

/-- The store produced by storing a block numbered 1 with an all-ones hash
into the empty store. -/
def c5StoreB : Store :=
  [(EVM_CURRENT_BLOCK ++ [BLOCKS_NUMBER], u256ToLeBytes 1),
   (block_path 1 ++ [BLOCKS_NUMBER], u256ToLeBytes 1),
   (block_path 1 ++ [BLOCKS_HASH], List.replicate 32 1),
   (block_path 1 ++ [BLOCKS_TRANSACTIONS], [])]

/-- The store produced by storing a one-transaction block numbered 2 over a
store whose transactions value for block 2 already held 64 stale bytes. -/
def c5StoreC : Store :=
  [(block_path 2 ++ [BLOCKS_TRANSACTIONS], List.replicate 32 4 ++ List.replicate 32 5),
   (EVM_CURRENT_BLOCK ++ [BLOCKS_NUMBER], u256ToLeBytes 2),
   (block_path 2 ++ [BLOCKS_NUMBER], u256ToLeBytes 2),
   (block_path 2 ++ [BLOCKS_HASH], List.replicate 32 0)]

/-- C5 counterexample, in three parts, one per restriction the amendment
keeps: (1) a block numbered `2 ^ 64` reads back as number 0, because the
pointer read uses an 8-byte buffer against the 32-byte written value and
truncates to the low 64 bits; (2) a block stored with the all-ones hash is
read back by `read_current_block` with the constructor-fixed all-zero hash
— the stored hash is never read, so the hash field is not preserved;
(3) writing a one-transaction block over a stale 64-byte transactions
value splices without truncating, so the read returns the new hash plus a
stale trailing hash — the claimed round trip fails when an older, longer
value sits under the numbered transactions path. -/
theorem c5_counterexample :
    (store_current_block_nodebug [] (L2Block.mk (2 ^ 64) (List.replicate 32 0) []) =
        .ok c5StoreA ∧
      read_current_block_number c5StoreA = .ok 0 ∧
      (L2Block.mk (2 ^ 64) (List.replicate 32 0) []).number ≠ 0) ∧
    (store_current_block_nodebug [] (L2Block.mk 1 (List.replicate 32 1) []) =
        .ok c5StoreB ∧
      read_current_block_nodebug c5StoreB = .ok (L2Block.new 1 []) ∧
      (L2Block.new 1 []).hash ≠ (L2Block.mk 1 (List.replicate 32 1) []).hash) ∧
    (store_current_block_nodebug
        [(block_path 2 ++ [BLOCKS_TRANSACTIONS], List.replicate 64 5)]
        (L2Block.mk 2 (List.replicate 32 0) [List.replicate 32 4]) = .ok c5StoreC ∧
      read_nth_block_transactions c5StoreC (block_path 2) =
        .ok [List.replicate 32 4, List.replicate 32 5] ∧
      [List.replicate 32 4, List.replicate 32 5] ≠
        (L2Block.mk 2 (List.replicate 32 0) [List.replicate 32 4]).transactions) := by
  refine ⟨⟨by decide, by decide, by decide⟩, ⟨by decide, ?_, by decide⟩,
    ⟨by decide, ?_, by decide⟩⟩
  · have hr1 : read_current_block_number c5StoreB = .ok 1 := by decide
    have hr4 : read_nth_block_transactions c5StoreB (block_path 1) = .ok [] :=
      read_nth_block_transactions_of_stored c5StoreB (block_path 1) []
        (by intro t ht; cases ht) (by decide) (by decide)
    simp only [read_current_block_nodebug, hr1, hr4]
  · exact read_nth_block_transactions_of_stored c5StoreC (block_path 2)
      [List.replicate 32 4, List.replicate 32 5]
      (by decide) (by decide) (by decide)

/-! ### Fixed 32-byte strides (C7) -/

theorem chunks32_filter_eq_fullStrides (v : Bytes) :
    (chunks32 v).filter (fun c => decide (c.length = 32)) = fullStrides v := by
  by_cases hnil : v = []
  · subst hnil
    rw [chunks32_nil, fullStrides]
    simp
  · rw [chunks32_cons v hnil, fullStrides]
    by_cases h32 : 32 ≤ v.length
    · rw [if_pos h32, List.filter_cons,
        if_pos (by simp only [List.length_take, decide_eq_true_eq]; omega)]
      rw [chunks32_filter_eq_fullStrides (v.drop 32)]
    · rw [if_neg h32, List.filter_cons,
        if_neg (by
          simp only [List.length_take, decide_eq_true_eq]
          omega)]
      have hd : v.drop 32 = [] := List.drop_eq_nil_of_le (by omega)
      rw [hd, chunks32_nil]
      rfl
termination_by v.length
decreasing_by
  simp only [List.length_drop]
  have : 0 < v.length := List.length_pos.mpr hnil
  omega

theorem fullStrides_length (v : Bytes) : (fullStrides v).length = v.length / 32 := by
  by_cases h32 : 32 ≤ v.length
  · rw [fullStrides, if_pos h32, List.length_cons, fullStrides_length (v.drop 32),
      List.length_drop]
    omega
  · rw [fullStrides, if_neg h32, List.length_nil]
    omega
termination_by v.length
decreasing_by
  simp only [List.length_drop]
  omega

/-- C7: reading the transaction list of a stored block splits the stored byte
sequence (capped at `MAX_TRANSACTION_HASHES = 4096` bytes, i.e. at most 128
hashes) into fixed 32-byte strides, silently discarding a trailing partial
stride instead of erroring, and a zero-length stored value yields the empty
list rather than an error. -/
theorem c7_transactions_read (s : Store) (bp : StorePath) (v : Bytes)
    (hv : lookupVal s (bp ++ [BLOCKS_TRANSACTIONS]) = some v) :
    read_nth_block_transactions s bp =
      .ok (fullStrides (v.take MAX_TRANSACTION_HASHES)) ∧
    (fullStrides (v.take MAX_TRANSACTION_HASHES)).length ≤ 128 ∧
    (v = [] → read_nth_block_transactions s bp = .ok []) := by
  have hsize : store_value_size s (bp ++ [BLOCKS_TRANSACTIONS]) = .ok v.length := by
    rw [store_value_size, hv]
  have hmain : read_nth_block_transactions s bp =
      .ok (fullStrides (v.take MAX_TRANSACTION_HASHES)) := by
    by_cases hzero : v.length = 0
    · have hvnil : v = [] := List.length_eq_zero.mp hzero
      subst hvnil
      simp only [read_nth_block_transactions, store_read_empty_safe, hsize,
        List.length_nil, if_pos, List.take_nil]
      rw [chunks32_nil, show fullStrides [] = [] from by rw [fullStrides]; simp]
      rfl
    · have hread := store_read_of_lookup s (bp ++ [BLOCKS_TRANSACTIONS]) v
        MAX_TRANSACTION_HASHES hv
      simp only [read_nth_block_transactions, store_read_empty_safe, hsize,
        if_neg hzero, hread]
      rw [chunks32_filter_eq_fullStrides]
  refine ⟨hmain, ?_, fun hv2 => ?_⟩
  · rw [fullStrides_length, List.length_take]
    simp only [MAX_TRANSACTION_HASHES]
    omega
  · subst hv2
    rw [hmain, List.take_nil, show fullStrides [] = [] from by rw [fullStrides]; simp]

theorem c7_transactions_read_witness :
    read_nth_block_transactions
        [(block_path 1 ++ [BLOCKS_TRANSACTIONS], List.replicate 40 1)] (block_path 1) =
      .ok (fullStrides ((List.replicate 40 1).take MAX_TRANSACTION_HASHES)) :=
  (c7_transactions_read
    [(block_path 1 ++ [BLOCKS_TRANSACTIONS], List.replicate 40 1)] (block_path 1)
    (List.replicate 40 1) (by decide)).1

/-! ### Path derivation: validity and injectivity (C8) -/

theorem decimalBytes_ne_nil (n : Nat) : decimalBytes n ≠ [] := by
  by_cases h : n = 0
  · subst h
    decide
  · rw [decimalBytes, if_neg h]
    intro hc
    rw [List.map_eq_nil_iff, List.reverse_eq_nil_iff] at hc
    have := ofDecimalDigits_decimalDigitsAux n n le_rfl
    rw [hc] at this
    exact h (by simpa [ofDecimalDigits] using this.symm)

theorem validSegment_decimalBytes (n : Nat) : validSegment (decimalBytes n) = true := by
  rw [validSegment, Bool.and_eq_true]
  constructor
  · cases hd : decimalBytes n with
    | nil => exact absurd hd (decimalBytes_ne_nil n)
    | cons a t => rfl
  · rw [List.all_eq_true]
    intro b hb
    have := decimalBytes_mem_digit n b hb
    simp only [validPathByte, Bool.or_eq_true, Bool.and_eq_true, decide_eq_true_eq,
      beq_iff_eq]
    omega

theorem hexEncode_ne_nil (h : Bytes) (hne : h ≠ []) : hexEncode h ≠ [] := by
  cases h with
  | nil => exact absurd rfl hne
  | cons b bs => simp [hexEncode]

theorem validPathByte_hexDigitByte (d : Nat) (hd : d < 16) :
    validPathByte (hexDigitByte d) = true := by
  interval_cases d <;> decide

theorem hexEncode_all_valid : ∀ h : Bytes, (∀ b ∈ h, b < 256) →
    ∀ x ∈ hexEncode h, validPathByte x = true := by
  intro h
  induction h with
  | nil =>
    intro _ x hx
    cases hx
  | cons b bs ih =>
    intro hb x hx
    rw [hexEncode] at hx
    rcases List.mem_cons.mp hx with rfl | hx
    · exact validPathByte_hexDigitByte _ (by have := hb b (by simp); omega)
    · rcases List.mem_cons.mp hx with rfl | hx
      · exact validPathByte_hexDigitByte _ (by have := hb b (by simp); omega)
      · exact ih (fun y hy => hb y (by simp [hy])) x hx

theorem validSegment_hexEncode (h : Bytes) (hb : ∀ b ∈ h, b < 256) (hne : h ≠ []) :
    validSegment (hexEncode h) = true := by
  rw [validSegment, Bool.and_eq_true]
  constructor
  · cases hh : hexEncode h with
    | nil => exact absurd hh (hexEncode_ne_nil h hne)
    | cons a t => rfl
  · rw [List.all_eq_true]
    exact hexEncode_all_valid h hb

/-- C8: the path-derivation functions are deterministic injections: distinct
block numbers, transaction hashes, and fragment indices map to distinct
paths, numbered block paths never collide with the current-block pointer
path, fragment children never collide with the metadata child, the
receipt and object namespaces are disjoint, and every derived path passes
the segment validation performed by `OwnedPath::try_from` (so derivation
never fails nor truncates on well-formed identifiers). -/
theorem c8_path_derivation :
    (∀ m n : Nat, block_path m = block_path n → m = n) ∧
    (∀ g h2 : Bytes, (∀ b ∈ g, b < 256) → (∀ b ∈ h2, b < 256) →
      receipt_path g = receipt_path h2 → g = h2) ∧
    (∀ g h2 : Bytes, (∀ b ∈ g, b < 256) → (∀ b ∈ h2, b < 256) →
      object_path g = object_path h2 → g = h2) ∧
    (∀ g h2 : Bytes, (∀ b ∈ g, b < 256) → (∀ b ∈ h2, b < 256) →
      chunked_transaction_path g = chunked_transaction_path h2 → g = h2) ∧
    (∀ (g h2 : Bytes) (i j : Nat), (∀ b ∈ g, b < 256) → (∀ b ∈ h2, b < 256) →
      transaction_chunk_path (chunked_transaction_path g) i =
        transaction_chunk_path (chunked_transaction_path h2) j → g = h2 ∧ i = j) ∧
    (∀ (h2 : Bytes) (i : Nat), transaction_chunk_path (chunked_transaction_path h2) i ≠
      chunked_transaction_num_chunks_path (chunked_transaction_path h2)) ∧
    (∀ n : Nat, block_path n ≠ EVM_CURRENT_BLOCK) ∧
    (∀ g h2 : Bytes, receipt_path g ≠ object_path h2) ∧
    (∀ n : Nat, pathOk (block_path n) = true) ∧
    (∀ h2 : Bytes, (∀ b ∈ h2, b < 256) → h2 ≠ [] →
      pathOk (receipt_path h2) = true ∧ pathOk (object_path h2) = true ∧
      pathOk (chunked_transaction_path h2) = true ∧
      (∀ i : Nat,
        pathOk (transaction_chunk_path (chunked_transaction_path h2) i) = true) ∧
      pathOk (chunked_transaction_num_chunks_path (chunked_transaction_path h2)) =
        true) := by
  refine ⟨?_, ?_, ?_, ?_, ?_, ?_, ?_, ?_, ?_, ?_⟩
  · intro m n hc
    simp only [block_path, EVM_BLOCKS, List.cons_append, List.nil_append,
      List.cons.injEq, and_true, true_and] at hc
    exact decimalBytes_injective hc
  · intro g h2 hg hh hc
    simp only [receipt_path, EVM_TRANSACTIONS_RECEIPTS, List.cons_append, List.nil_append,
      List.cons.injEq, and_true, true_and] at hc
    exact hexEncode_injOn g h2 hg hh hc
  · intro g h2 hg hh hc
    simp only [object_path, EVM_TRANSACTIONS_OBJECTS, List.cons_append, List.nil_append,
      List.cons.injEq, and_true, true_and] at hc
    exact hexEncode_injOn g h2 hg hh hc
  · intro g h2 hg hh hc
    simp only [chunked_transaction_path, CHUNKED_TRANSACTIONS, List.cons_append,
      List.nil_append, List.cons.injEq, and_true, true_and] at hc
    exact hexEncode_injOn g h2 hg hh hc
  · intro g h2 i j hg hh hc
    simp only [transaction_chunk_path, chunked_transaction_path, CHUNKED_TRANSACTIONS,
      List.cons_append, List.nil_append, List.cons.injEq, and_true, true_and] at hc
    exact ⟨hexEncode_injOn g h2 hg hh hc.1, decimalBytes_injective hc.2⟩
  · intro h2 i
    exact transaction_chunk_path_ne_nc h2 i
  · intro n hc
    simp only [block_path, EVM_BLOCKS, EVM_CURRENT_BLOCK, List.cons_append,
      List.nil_append, List.cons.injEq, and_true, true_and] at hc
    exact decimalBytes_ne_current n hc
  · intro g h2 hc
    simp only [receipt_path, object_path, EVM_TRANSACTIONS_RECEIPTS,
      EVM_TRANSACTIONS_OBJECTS, List.cons_append, List.nil_append,
      List.cons.injEq] at hc
    exact absurd hc.2.1 (by decide)
  · intro n
    rw [show block_path n = [strBytes ("evm"), strBytes ("blocks"), decimalBytes n] from rfl,
      pathOk]
    simp only [List.all_cons, List.all_nil, validSegment_decimalBytes, Bool.and_true]
    decide
  · intro h2 hb hne
    have hhex := validSegment_hexEncode h2 hb hne
    refine ⟨?_, ?_, ?_, fun i => ?_, ?_⟩
    · rw [show receipt_path h2 =
          [strBytes ("evm"), strBytes ("transactions_receipts"), hexEncode h2] from rfl,
        pathOk]
      simp only [List.all_cons, List.all_nil, hhex, Bool.and_true]
      decide
    · rw [show object_path h2 =
          [strBytes ("evm"), strBytes ("transactions_objects"), hexEncode h2] from rfl,
        pathOk]
      simp only [List.all_cons, List.all_nil, hhex, Bool.and_true]
      decide
    · rw [show chunked_transaction_path h2 =
          [strBytes ("chunked_transactions"), hexEncode h2] from rfl, pathOk]
      simp only [List.all_cons, List.all_nil, hhex, Bool.and_true]
      decide
    · rw [show transaction_chunk_path (chunked_transaction_path h2) i =
          [strBytes ("chunked_transactions"), hexEncode h2, decimalBytes i] from rfl,
        pathOk]
      simp only [List.all_cons, List.all_nil, hhex, validSegment_decimalBytes,
        Bool.and_true]
      decide
    · rw [show chunked_transaction_num_chunks_path (chunked_transaction_path h2) =
          [strBytes ("chunked_transactions"), hexEncode h2,
            strBytes ("num_chunks")] from rfl, pathOk]
      simp only [List.all_cons, List.all_nil, hhex, Bool.and_true]
      decide

theorem c8_path_derivation_witness :
    (12 : Nat) = 12 ∧ pathOk (block_path 7) = true ∧
    pathOk (chunked_transaction_path (List.replicate 32 0)) = true :=
  ⟨c8_path_derivation.1 12 12 rfl,
   c8_path_derivation.2.2.2.2.2.2.2.2.1 7,
   (c8_path_derivation.2.2.2.2.2.2.2.2.2 (List.replicate 32 0)
     (by decide) (by decide)).2.2.1⟩
